import Mathlib

/-!
Verification development for the insurance-form-automation repository.

The embedding models, over `List Char` text:
 - the three placeholder regular-expression scanners of
   `modules/docx_handler.py::find_placeholders` (`findDD`, `findBR`, `findSB`);
 - the document tree (body paragraphs, tables, section headers/footers) and
   the scanner `findPlaceholders`;
 - the substitution engine `replace_placeholders` / `replace_in_paragraph`,
   with Python `str.replace` modelled by `replaceAll`;
 - `modules/pdf_extractor.py::extract_text_from_multiple_pdfs` and the
   report-combining step of `app.py`;
 - `modules/llm_processor.py::extract_fields_from_text`'s key-completion;
 - the `app.py` processing pipeline, with the PDF-extraction and LLM
   collaborators as opaque parameters.
-/

namespace FormAuto

/-- Text is a list of characters (Python `str`). -/
abbrev Str := List Char

/-- The character class `[A-Z_]` of the bracket and single-brace regexes. -/
def upChar (c : Char) : Bool := ('A' ≤ c && c ≤ 'Z') || c == '_'

/-- The four placeholder delimiter characters. -/
def delimChar (c : Char) : Bool := c == '[' || c == ']' || c == '{' || c == '}'

/-- A character that can occur in a placeholder token of an `[A-Z_]+` name. -/
def tokChar (c : Char) : Bool := upChar c || delimChar c

/-- Python `s.startswith(p)` on char lists. -/
def isPre : Str → Str → Bool
  | [], _ => true
  | _ :: _, [] => false
  | a :: p, b :: s => a == b && isPre p s

/-- Python substring test `p in s`. -/
def isSub (p : Str) : Str → Bool
  | [] => isPre p []
  | s@(_ :: rest) => isPre p s || isSub p rest

/-- Helper for `replaceAll` on a nonempty pattern `p :: pt`. -/
def replaceAllAux (p : Char) (pt rep : Str) : Str → Str
  | [] => []
  | c :: rest =>
    if isPre (p :: pt) (c :: rest) then
      rep ++ replaceAllAux p pt rep (rest.drop pt.length)
    else
      c :: replaceAllAux p pt rep rest
termination_by s => s.length
decreasing_by
  all_goals simp only [List.length_drop, List.length_cons]
  all_goals omega

/-- Python `s.replace(pat, rep)`: replace all non-overlapping occurrences,
scanning left to right. -/
def replaceAll (pat rep s : Str) : Str :=
  match pat with
  | [] => s
  | p :: pt => replaceAllAux p pt rep s

/-- The literal `f"{{{{{placeholder}}}}}"` of `replace_in_paragraph`. -/
def ddForm (n : Str) : Str := '{' :: '{' :: (n ++ ['}', '}'])

/-- The literal `f"[{placeholder}]"` of `replace_in_paragraph`. -/
def brForm (n : Str) : Str := '[' :: (n ++ [']'])

/-- The literal `f"{{{placeholder}}}"` of `replace_in_paragraph`. -/
def sbForm (n : Str) : Str := '{' :: (n ++ ['}'])

/-- The three placeholder formats tried by `replace_in_paragraph`,
in priority order. -/
def formats (n : Str) : List Str := [ddForm n, brForm n, sbForm n]

/-- `re.findall(r'\{\{([^}]+)\}\}', s)`: at each position, `{{`, then a
nonempty maximal run of non-`}` characters, then `}}`; on failure the scan
advances one character, on success it continues after the match. -/
def findDD : Str → List Str
  | '{' :: '{' :: rest =>
    let cap := rest.takeWhile (· != '}')
    if cap ≠ [] ∧ isPre ['}', '}'] (rest.drop cap.length) then
      cap :: findDD (rest.drop (cap.length + 2))
    else
      findDD ('{' :: rest)
  | _ :: rest => findDD rest
  | [] => []
termination_by s => s.length
decreasing_by
  all_goals simp only [List.length_drop, List.length_cons]
  all_goals omega

/-- `re.findall(r'\[([A-Z_]+)\]', s)`. -/
def findBR : Str → List Str
  | '[' :: rest =>
    let cap := rest.takeWhile upChar
    if cap ≠ [] ∧ isPre [']'] (rest.drop cap.length) then
      cap :: findBR (rest.drop (cap.length + 1))
    else
      findBR rest
  | _ :: rest => findBR rest
  | [] => []
termination_by s => s.length
decreasing_by
  all_goals simp only [List.length_drop, List.length_cons]
  all_goals omega

/-- `re.findall(r'\{([A-Z_]+)\}', s)`. -/
def findSB : Str → List Str
  | '{' :: rest =>
    let cap := rest.takeWhile upChar
    if cap ≠ [] ∧ isPre ['}'] (rest.drop cap.length) then
      cap :: findSB (rest.drop (cap.length + 1))
    else
      findSB rest
  | _ :: rest => findSB rest
  | [] => []
termination_by s => s.length
decreasing_by
  all_goals simp only [List.length_drop, List.length_cons]
  all_goals omega

/-- `extract_from_text` of `find_placeholders`: the captures of all three
patterns on one text block. -/
def extractAll (t : Str) : List Str := findDD t ++ findBR t ++ findSB t

/-- A `python-docx` run: a text span plus opaque formatting. -/
structure Run where
  text : Str
  fmt : Nat
deriving DecidableEq

/-- A paragraph is an ordered list of runs. -/
structure Para where
  runs : List Run
deriving DecidableEq

/-- `paragraph.text`: the concatenation of the run texts. -/
def Para.text (p : Para) : Str := (p.runs.map Run.text).flatten

/-- A document section: header paragraphs and footer paragraphs. -/
structure Sect where
  header : List Para
  footer : List Para
deriving DecidableEq

/-- A document: body paragraphs, tables (rows of cells of paragraphs),
and sections. -/
structure Doc where
  paras : List Para
  tables : List (List (List (List Para)))
  sections : List Sect
deriving DecidableEq

/-- All table-cell paragraphs, in table, row, cell, paragraph order. -/
def tableParas (d : Doc) : List Para := d.tables.flatten.flatten.flatten

/-- All header/footer paragraphs: per section, header then footer. -/
def sectionParas (d : Doc) : List Para :=
  d.sections.flatMap (fun s => s.header ++ s.footer)

/-- All paragraphs walked by `find_placeholders` and `replace_placeholders`:
body, then tables, then section headers/footers. -/
def allParas (d : Doc) : List Para := d.paras ++ tableParas d ++ sectionParas d

/-- `find_placeholders`: captures of all three patterns over every walked
paragraph, as a set, returned sorted (`sorted(list(placeholders))`). -/
def findPlaceholders (d : Doc) : List Str :=
  List.insertionSort (· ≤ ·) ((allParas d).flatMap (fun p => extractAll p.text)).dedup

/-- The run rewrite of `replace_in_paragraph` once a format matched: set every
run's text to `''`, then put the new text in the first run, or append a fresh
run (default formatting `0`) when the paragraph had none. -/
def rewritePara (p : Para) (newText : Str) : Para :=
  match p.runs with
  | [] => ⟨[⟨newText, 0⟩]⟩
  | r :: rs => ⟨⟨newText, r.fmt⟩ :: rs.map (fun q => ⟨[], q.fmt⟩)⟩

/-- The format loop of `replace_in_paragraph`: try each format in order and
stop (`break`) at the first one contained in the paragraph text. -/
def tryFormats (value : Str) : List Str → Para → Para
  | [], p => p
  | f :: fs, p =>
    if isSub f p.text then rewritePara p (replaceAll f value p.text)
    else tryFormats value fs p

/-- `replace_in_paragraph(paragraph, placeholder, value)`. -/
def replaceInParagraph (name value : Str) (p : Para) : Para :=
  tryFormats value (formats name) p

/-- The same format loop on a bare text, used to reason about the final
paragraph text. -/
def tryFormatsText (value : Str) : List Str → Str → Str
  | [], t => t
  | f :: fs, t => if isSub f t then replaceAll f value t else tryFormatsText value fs t

/-- The text-level effect of `replace_in_paragraph` for one field. -/
def applyText (name value t : Str) : Str := tryFormatsText value (formats name) t

/-- Apply a paragraph transformation to every region walked by
`replace_placeholders`: body, tables, headers and footers. -/
def mapDocParas (g : Para → Para) (d : Doc) : Doc :=
  ⟨d.paras.map g,
   d.tables.map (fun t => t.map (fun row => row.map (fun cell => cell.map g))),
   d.sections.map (fun s => ⟨s.header.map g, s.footer.map g⟩)⟩

/-- `replace_placeholders(doc, data)`: for each field in mapping order,
rewrite every walked paragraph. -/
def replacePlaceholders (data : List (Str × Str)) (d : Doc) : Doc :=
  data.foldl (fun doc kv => mapDocParas (replaceInParagraph kv.1 kv.2) doc) d

/-- The concatenated text of every walked paragraph of a document. -/
def docTexts (d : Doc) : List Str := (allParas d).map Para.text

deriving instance DecidableEq for Except

/-- A source report: its filename and the outcome of the opaque PDF
text-extraction collaborator (`extract_text_from_pdf`), which either returns
the page text or raises. -/
structure PdfFile where
  name : Str
  content : Except Str Str
deriving DecidableEq

/-- The `f"Error: {str(e)}"` entry text of `extract_text_from_multiple_pdfs`. -/
def errText (e : Str) : Str := "Error: ".toList ++ e

/-- Python dict assignment `d[k] = v`: update in place if the key exists
(keeping its position), otherwise append. -/
def dictInsert (d : List (Str × Str)) (k v : Str) : List (Str × Str) :=
  if d.any (fun kv => kv.1 == k) then
    d.map (fun kv => if kv.1 == k then (kv.1, v) else kv)
  else d ++ [(k, v)]

/-- `extract_text_from_multiple_pdfs`: per file, store the extracted text
under the filename, or the string `"Error: ..."` when extraction raised;
never aborts. -/
def extractMulti (fs : List PdfFile) : List (Str × Str) :=
  fs.foldl (fun acc f =>
    dictInsert acc f.name (match f.content with
      | .ok t => t
      | .error e => errText e)) []

/-- The separator line of the combining step in `app.py`. -/
def sepLine : Str := "=== COMBINED REPORTS ===".toList

/-- The full join string `"\n\n=== COMBINED REPORTS ===\n\n"`. -/
def sepFull : Str := "\n\n".toList ++ sepLine ++ "\n\n".toList

/-- The `"File: "` entry marker of the combining step. -/
def fileTag : Str := "File: ".toList

/-- The combining step of `app.py`:
`"\n\n=== COMBINED REPORTS ===\n\n".join([f"File: {name}\n{text}" ...])`. -/
def combineTexts (entries : List (Str × Str)) : Str :=
  List.intercalate sepFull (entries.map (fun kv => fileTag ++ kv.1 ++ '\n' :: kv.2))

/-- Step 2 of the pipeline: a single report's extraction result is used
directly (a raise propagates); multiple reports go through
`extract_text_from_multiple_pdfs` and are joined. -/
def step2 (fs : List PdfFile) : Except Str Str :=
  match fs with
  | [f] => f.content
  | _ => .ok (combineTexts (extractMulti fs))

/-- The `"Not Found"` sentinel of `extract_fields_from_text`. -/
def notFound : Str := "Not Found".toList

/-- Python `dict.get` on an association list. -/
def lookupStr (k : Str) : List (Str × Str) → Option Str
  | [] => none
  | kv :: rest => if kv.1 == k then some kv.2 else lookupStr k rest

/-- The key-completion loop of `extract_fields_from_text`: every requested
placeholder becomes a key, defaulting to `"Not Found"`. -/
def completeFields (ps : List Str) (data : List (Str × Str)) : List (Str × Str) :=
  ps.map (fun p => (p, (lookupStr p data).getD notFound))

/-- The failure classes surfaced by the pipeline. -/
inductive PipeErr where
  | noPlaceholders
  | extractErr (e : Str)
  | llmErr (e : Str)
deriving DecidableEq

/-- The `app.py` processing pipeline over an already-loaded template:
scan placeholders (stop when none), extract the source text, call the
opaque extraction collaborator `llm` (its parsed mapping or a failure),
and run substitution. Any error aborts with no output document. -/
def pipeline (d : Doc) (fs : List PdfFile)
    (llm : List Str → Str → Except Str (List (Str × Str))) : Except PipeErr Doc :=
  let ps := findPlaceholders d
  if ps = [] then .error .noPlaceholders
  else
    match step2 fs with
    | .error e => .error (.extractErr e)
    | .ok text =>
      match llm ps text with
      | .error e => .error (.llmErr e)
      | .ok data => .ok (replacePlaceholders (completeFields ps data) d)

/-- Number of positions of `s` at which `pat` occurs. -/
def countOcc (pat : Str) : Str → Nat
  | [] => 0
  | c :: rest => (if isPre pat (c :: rest) then 1 else 0) + countOcc pat rest

/-! ### Scanner lemmas -/


theorem takeWhile_all_append {p : Char → Bool} {u : Str} (h : ∀ c ∈ u, p c = true)
    {d : Char} (hd : p d = false) (w : Str) : (u ++ d :: w).takeWhile p = u := by
  induction u with
  | nil => simp [List.takeWhile, hd]
  | cons a u ih =>
    simp only [List.cons_append, List.takeWhile]
    rw [h a (List.mem_cons_self a u)]
    simp only [List.cons.injEq, true_and]
    exact ih (fun c hc => h c (List.mem_cons_of_mem a hc))

theorem findBR_all_up : ∀ t : Str, ∀ cap ∈ findBR t, cap ≠ [] ∧ ∀ c ∈ cap, upChar c = true := by
  intro t
  induction t using findBR.induct with
  | case1 rest cap hcond ih =>
    intro x hx
    rw [findBR] at hx
    simp only [if_pos hcond] at hx
    rcases List.mem_cons.mp hx with h | h
    · subst h
      exact ⟨hcond.1, fun c hc => List.mem_takeWhile_imp hc⟩
    · exact ih x h
  | case2 rest cap hcond ih =>
    intro x hx
    rw [findBR] at hx
    simp only [if_neg hcond] at hx
    exact ih x hx
  | case3 hd rest hne ih =>
    intro x hx
    rw [findBR] at hx
    · exact ih x hx
    · exact hne
  | case4 =>
    intro x hx
    rw [findBR] at hx
    exact absurd hx (List.not_mem_nil x)

theorem findSB_all_up : ∀ t : Str, ∀ cap ∈ findSB t, cap ≠ [] ∧ ∀ c ∈ cap, upChar c = true := by
  intro t
  induction t using findSB.induct with
  | case1 rest cap hcond ih =>
    intro x hx
    rw [findSB] at hx
    simp only [if_pos hcond] at hx
    rcases List.mem_cons.mp hx with h | h
    · subst h
      exact ⟨hcond.1, fun c hc => List.mem_takeWhile_imp hc⟩
    · exact ih x h
  | case2 rest cap hcond ih =>
    intro x hx
    rw [findSB] at hx
    simp only [if_neg hcond] at hx
    exact ih x hx
  | case3 hd rest hne ih =>
    intro x hx
    rw [findSB] at hx
    · exact ih x hx
    · exact hne
  | case4 =>
    intro x hx
    rw [findSB] at hx
    exact absurd hx (List.not_mem_nil x)

theorem findDD_all_ok : ∀ t : Str, ∀ cap ∈ findDD t, cap ≠ [] ∧ ∀ c ∈ cap, c ≠ '}' := by
  intro t
  induction t using findDD.induct with
  | case1 rest cap hcond ih =>
    intro x hx
    rw [findDD] at hx
    simp only [if_pos hcond] at hx
    rcases List.mem_cons.mp hx with h | h
    · subst h
      refine ⟨hcond.1, fun c hc => ?_⟩
      have := List.mem_takeWhile_imp hc
      simpa using this
    · exact ih x h
  | case2 rest cap hcond ih =>
    intro x hx
    rw [findDD] at hx
    simp only [if_neg hcond] at hx
    exact ih x hx
  | case3 hd rest hne ih =>
    intro x hx
    rw [findDD] at hx
    · exact ih x hx
    · exact hne
  | case4 =>
    intro x hx
    rw [findDD] at hx
    exact absurd hx (List.not_mem_nil x)



theorem upChar_not_lower {c : Char} (h : upChar c = true) : c.isLower = false := by
  simp only [upChar, Bool.or_eq_true, Bool.and_eq_true, decide_eq_true_eq, beq_iff_eq] at h
  simp only [Char.isLower]
  rcases h with ⟨h1, h2⟩ | h
  · have v1 : c.val ≤ 90 := h2
    by_contra hc
    simp only [Bool.not_eq_false, Bool.and_eq_true, decide_eq_true_eq] at hc
    have v2 : (97 : UInt32) ≤ c.val := hc.1
    have := UInt32.le_trans v2 v1
    exact absurd this (by decide)
  · subst h; decide

theorem findBR_single {n : Str} (hne : n ≠ []) (hup : ∀ c ∈ n, upChar c = true) :
    findBR (brForm n) = [n] := by
  rw [brForm, findBR]
  have hcap : (n ++ [']']).takeWhile upChar = n := by
    have : (n ++ ']' :: []).takeWhile upChar = n :=
      takeWhile_all_append hup (by decide) []
    simpa using this
  rw [hcap]
  have hdrop : (n ++ [']']).drop n.length = [']'] := List.drop_left n [']']
  rw [hdrop]
  rw [if_pos ⟨hne, by decide⟩]
  have hdrop2 : (n ++ [']']).drop (n.length + 1) = [] := by
    apply List.drop_eq_nil_of_le
    simp
  rw [hdrop2, findBR]

theorem findSB_single {n : Str} (hne : n ≠ []) (hup : ∀ c ∈ n, upChar c = true) :
    findSB (sbForm n) = [n] := by
  rw [sbForm, findSB]
  have hcap : (n ++ ['}']).takeWhile upChar = n := by
    have : (n ++ '}' :: []).takeWhile upChar = n :=
      takeWhile_all_append hup (by decide) []
    simpa using this
  rw [hcap]
  have hdrop : (n ++ ['}']).drop n.length = ['}'] := List.drop_left n ['}']
  rw [hdrop]
  rw [if_pos ⟨hne, by decide⟩]
  have hdrop2 : (n ++ ['}']).drop (n.length + 1) = [] := by
    apply List.drop_eq_nil_of_le
    simp
  rw [hdrop2, findSB]

theorem findDD_single {n : Str} (hne : n ≠ []) (hnb : ∀ c ∈ n, c ≠ '}') :
    findDD (ddForm n) = [n] := by
  rw [ddForm, findDD]
  have hcap : (n ++ ['}', '}']).takeWhile (· != '}') = n := by
    have : (n ++ '}' :: ['}']).takeWhile (· != '}') = n := by
      apply takeWhile_all_append
      · intro c hc
        simpa using hnb c hc
      · decide
    simpa using this
  rw [hcap]
  have hdrop : (n ++ ['}', '}']).drop n.length = ['}', '}'] := List.drop_left n _
  rw [hdrop]
  rw [if_pos ⟨hne, by decide⟩]
  have hdrop2 : (n ++ ['}', '}']).drop (n.length + 2) = [] := by
    apply List.drop_eq_nil_of_le
    simp
  rw [hdrop2, findDD]



/-! ### Paragraph rewrite lemmas -/

theorem rewritePara_text (p : Para) (t : Str) : (rewritePara p t).text = t := by
  rw [rewritePara]
  match h : p.runs with
  | [] => simp [Para.text]
  | r :: rs =>
    simp only [Para.text, List.map_cons, List.map_map, List.flatten_cons]
    have : (rs.map (Run.text ∘ fun q => ⟨[], q.fmt⟩)).flatten = ([] : Str) := by
      rw [List.flatten_eq_nil_iff]
      intro x hx
      rcases List.mem_map.mp hx with ⟨q, _, hq⟩
      exact hq.symm
    rw [this, List.append_nil]

theorem tryFormats_eq (value : Str) (fs : List Str) (p : Para) :
    tryFormats value fs p =
      if fs.any (fun f => isSub f p.text) then
        rewritePara p (tryFormatsText value fs p.text)
      else p := by
  induction fs with
  | nil => simp [tryFormats]
  | cons f fs ih =>
    by_cases h : isSub f p.text
    · simp [tryFormats, tryFormatsText, h]
    · simp only [tryFormats, tryFormatsText, h, if_neg, Bool.false_eq_true, not_false_iff, ite_false,
        List.any_cons]
      rw [ih]
      simp [h]

theorem tryFormatsText_no_match {value : Str} {fs : List Str} {t : Str}
    (h : ∀ f ∈ fs, isSub f t = false) : tryFormatsText value fs t = t := by
  induction fs with
  | nil => rfl
  | cons f fs ih =>
    rw [tryFormatsText, h f (List.mem_cons_self f fs), if_neg (by simp)]
    exact ih (fun g hg => h g (List.mem_cons_of_mem f hg))

theorem replaceInParagraph_eq (name value : Str) (p : Para) :
    replaceInParagraph name value p =
      if (formats name).any (fun f => isSub f p.text) then
        rewritePara p (applyText name value p.text)
      else p :=
  tryFormats_eq value (formats name) p

/-- The text of a rewritten paragraph is the text-level substitution result. -/
theorem replaceInParagraph_text (name value : Str) (p : Para) :
    (replaceInParagraph name value p).text = applyText name value p.text := by
  rw [replaceInParagraph_eq]
  by_cases h : (formats name).any (fun f => isSub f p.text)
  · rw [if_pos h, rewritePara_text]
  · rw [if_neg h]
    rw [applyText, tryFormatsText_no_match]
    intro f hf
    by_contra hc
    simp only [Bool.not_eq_false] at hc
    exact h (List.any_eq_true.mpr ⟨f, hf, hc⟩)



/-! ### Claim theorems: C6, C7, C2, C3 -/

/-- C6: for each of the three placeholder syntaxes, a text that is exactly one
placeholder occurrence yields exactly that capture, equal to the content
between the delimiters; every bracket- and single-brace capture is a nonempty
`[A-Z_]+` string, so content containing lowercase letters is never captured by
those two patterns; every double-brace capture is nonempty and `}`-free. -/
theorem claim_C6 :
    (∀ n : Str, n ≠ [] → (∀ c ∈ n, c ≠ '}') → findDD (ddForm n) = [n])
  ∧ (∀ n : Str, n ≠ [] → (∀ c ∈ n, upChar c = true) → findBR (brForm n) = [n])
  ∧ (∀ n : Str, n ≠ [] → (∀ c ∈ n, upChar c = true) → findSB (sbForm n) = [n])
  ∧ (∀ t cap, cap ∈ findBR t → cap ≠ [] ∧ ∀ c ∈ cap, upChar c = true)
  ∧ (∀ t cap, cap ∈ findSB t → cap ≠ [] ∧ ∀ c ∈ cap, upChar c = true)
  ∧ (∀ t cap, cap ∈ findDD t → cap ≠ [] ∧ ∀ c ∈ cap, c ≠ '}')
  ∧ (∀ t cap c, cap ∈ findBR t → c ∈ cap → c.isLower = false)
  ∧ (∀ t cap c, cap ∈ findSB t → c ∈ cap → c.isLower = false) := by
  refine ⟨fun n h1 h2 => findDD_single h1 h2,
    fun n h1 h2 => findBR_single h1 h2,
    fun n h1 h2 => findSB_single h1 h2,
    findBR_all_up, findSB_all_up, findDD_all_ok, ?_, ?_⟩
  · intro t cap c hcap hc
    exact upChar_not_lower ((findBR_all_up t cap hcap).2 c hc)
  · intro t cap c hcap hc
    exact upChar_not_lower ((findSB_all_up t cap hcap).2 c hc)

theorem claim_C6_witness :
    findDD (ddForm ['C', 'l', 'a', 'i', 'm']) = [['C', 'l', 'a', 'i', 'm']]
  ∧ findBR (brForm ['A', '_', 'X']) = [['A', '_', 'X']]
  ∧ findSB (sbForm ['T']) = [['T']] :=
  ⟨claim_C6.1 _ (by decide) (by decide),
   claim_C6.2.1 _ (by decide) (by decide),
   claim_C6.2.2.1 _ (by decide) (by decide)⟩

/-- C7: the mapping built by `extract_fields_from_text` has every requested
field name as a key, with the value found in the parsed collaborator response,
or the literal sentinel `"Not Found"` when that field is absent. -/
theorem claim_C7 : ∀ (ps : List Str) (data : List (Str × Str)) (p : Str), p ∈ ps →
    lookupStr p (completeFields ps data) = some ((lookupStr p data).getD notFound)
    ∧ (lookupStr p data = none → lookupStr p (completeFields ps data) = some notFound) := by
  have main : ∀ (ps : List Str) (data : List (Str × Str)) (p : Str), p ∈ ps →
      lookupStr p (completeFields ps data) = some ((lookupStr p data).getD notFound) := by
    intro ps data p hp
    induction ps with
    | nil => cases hp
    | cons q ps ih =>
      by_cases h : q = p
      · subst h
        simp [completeFields, lookupStr]
      · rw [completeFields, List.map_cons, lookupStr, if_neg (by simpa using h)]
        rcases List.mem_cons.mp hp with h' | h'
        · exact absurd h'.symm h
        · exact ih h'
  intro ps data p hp
  refine ⟨main ps data p hp, fun habs => ?_⟩
  rw [main ps data p hp, habs]
  rfl

theorem claim_C7_witness :
    lookupStr ['X'] (completeFields [['X'], ['Y']] [(['Y'], ['v'])]) =
      some ((lookupStr ['X'] [(['Y'], ['v'])]).getD notFound) :=
  (claim_C7 [['X'], ['Y']] [(['Y'], ['v'])] ['X'] (by decide)).1

/-- C2: for every field and paragraph, `replace_in_paragraph` applies the
first format, in the priority order double-brace, bracket, single-brace, whose
literal token occurs in the paragraph text, rewrites the paragraph with
`str.replace` on that one format only, and applies no format otherwise. -/
theorem claim_C2 : ∀ (name value : Str) (p : Para),
    (isSub (ddForm name) p.text = true →
       replaceInParagraph name value p = rewritePara p (replaceAll (ddForm name) value p.text))
  ∧ (isSub (ddForm name) p.text = false → isSub (brForm name) p.text = true →
       replaceInParagraph name value p = rewritePara p (replaceAll (brForm name) value p.text))
  ∧ (isSub (ddForm name) p.text = false → isSub (brForm name) p.text = false →
       isSub (sbForm name) p.text = true →
       replaceInParagraph name value p = rewritePara p (replaceAll (sbForm name) value p.text))
  ∧ (isSub (ddForm name) p.text = false → isSub (brForm name) p.text = false →
       isSub (sbForm name) p.text = false →
       replaceInParagraph name value p = p) := by
  intro name value p
  refine ⟨fun h1 => ?_, fun h1 h2 => ?_, fun h1 h2 h3 => ?_, fun h1 h2 h3 => ?_⟩
  · simp [replaceInParagraph, formats, tryFormats, h1]
  · simp [replaceInParagraph, formats, tryFormats, h1, h2]
  · simp [replaceInParagraph, formats, tryFormats, h1, h2, h3]
  · simp [replaceInParagraph, formats, tryFormats, h1, h2, h3]

theorem claim_C2_witness :
    replaceInParagraph ['X'] ['v'] ⟨[⟨['{', 'X', '}', ' ', '[', 'X', ']'], 3⟩]⟩ =
      rewritePara ⟨[⟨['{', 'X', '}', ' ', '[', 'X', ']'], 3⟩]⟩
        (replaceAll (brForm ['X']) ['v'] ['{', 'X', '}', ' ', '[', 'X', ']']) :=
  (claim_C2 ['X'] ['v'] _).2.1 (by decide) (by decide)

/-- C3: when some format of the field matches a paragraph, every existing
run's text is cleared and the whole new text goes to the first run (keeping
its formatting), or to a newly appended run if the paragraph had no runs;
when no format matches, the paragraph is left completely unchanged. -/
theorem claim_C3 : ∀ (name value : Str) (p : Para),
    ((∀ f ∈ formats name, isSub f p.text = false) → replaceInParagraph name value p = p)
  ∧ ((∃ f ∈ formats name, isSub f p.text = true) →
       (p.runs = [] →
         (replaceInParagraph name value p).runs = [⟨applyText name value p.text, 0⟩])
       ∧ (∀ r rs, p.runs = r :: rs →
         (replaceInParagraph name value p).runs =
           ⟨applyText name value p.text, r.fmt⟩ :: rs.map (fun q => ⟨[], q.fmt⟩))) := by
  intro name value p
  constructor
  · intro h
    rw [replaceInParagraph_eq, if_neg]
    simp only [List.any_eq_true, not_exists, not_and]
    intro f hf
    simp [h f hf]
  · intro h
    have ha : (formats name).any (fun f => isSub f p.text) = true := by
      rcases h with ⟨f, hf, hf2⟩
      exact List.any_eq_true.mpr ⟨f, hf, hf2⟩
    rw [replaceInParagraph_eq, if_pos ha]
    constructor
    · intro hr
      rw [rewritePara]
      split
      · rfl
      · rename_i r rs heq
        rw [hr] at heq
        cases heq
    · intro r rs hr
      rw [rewritePara]
      split
      · rename_i heq
        rw [hr] at heq
        cases heq
      · rename_i r' rs' heq
        rw [hr] at heq
        cases heq
        rfl

theorem claim_C3_witness :
    (replaceInParagraph ['X'] ['v'] ⟨[⟨['[', 'X', ']'], 5⟩, ⟨['t'], 8⟩]⟩).runs =
      ⟨applyText ['X'] ['v'] ['[', 'X', ']', 't'], 5⟩ :: [⟨[], 8⟩] :=
  ((claim_C3 ['X'] ['v'] _).2 (by decide)).2 _ _ rfl



/-! ### Claim C1: the scanner -/

/-- C1: `find_placeholders` walks body paragraphs, table-cell paragraphs and
header/footer paragraphs, applies all three patterns to each paragraph's
concatenated text, and returns the captured names deduplicated and sorted in
(strictly increasing) lexicographic order. -/
theorem claim_C1 : ∀ d : Doc,
    (findPlaceholders d).Sorted (· < ·)
  ∧ (findPlaceholders d).Nodup
  ∧ (∀ n : Str, n ∈ findPlaceholders d ↔
      ((∃ p ∈ d.paras, n ∈ extractAll p.text)
       ∨ (∃ p ∈ tableParas d, n ∈ extractAll p.text)
       ∨ (∃ p ∈ sectionParas d, n ∈ extractAll p.text))) := by
  intro d
  have hperm := List.perm_insertionSort (α := Str) (· ≤ ·)
    ((allParas d).flatMap (fun p => extractAll p.text)).dedup
  have hnd : (findPlaceholders d).Nodup :=
    (hperm.nodup_iff).mpr (List.nodup_dedup _)
  have hsortedLe : (findPlaceholders d).Sorted (· ≤ ·) :=
    List.sorted_insertionSort (· ≤ ·) _
  refine ⟨hsortedLe.lt_of_le hnd, hnd, ?_⟩
  intro n
  rw [findPlaceholders, hperm.mem_iff, List.mem_dedup, List.mem_flatMap]
  constructor
  · rintro ⟨p, hp, hn⟩
    rcases List.mem_append.mp (by rw [allParas] at hp; exact hp) with hp' | hp'
    · rcases List.mem_append.mp hp' with h | h
      · exact Or.inl ⟨p, h, hn⟩
      · exact Or.inr (Or.inl ⟨p, h, hn⟩)
    · exact Or.inr (Or.inr ⟨p, hp', hn⟩)
  · rintro (⟨p, hp, hn⟩ | ⟨p, hp, hn⟩ | ⟨p, hp, hn⟩)
    · exact ⟨p, by rw [allParas]; exact List.mem_append.mpr (Or.inl (List.mem_append.mpr (Or.inl hp))), hn⟩
    · exact ⟨p, by rw [allParas]; exact List.mem_append.mpr (Or.inl (List.mem_append.mpr (Or.inr hp))), hn⟩
    · exact ⟨p, by rw [allParas]; exact List.mem_append.mpr (Or.inr hp), hn⟩

/-! ### Claim C8: empty scan halts the pipeline -/

/-- C8: a document in which no paragraph yields any capture scans to the empty
list, and the pipeline then stops with the no-placeholders precondition error,
independently of the extraction collaborator, producing no output document. -/
theorem claim_C8 : ∀ d : Doc, (∀ p ∈ allParas d, extractAll p.text = []) →
    findPlaceholders d = []
    ∧ (∀ fs llm, pipeline d fs llm = .error .noPlaceholders)
    ∧ (∀ fs llm llm', pipeline d fs llm = pipeline d fs llm') := by
  intro d h
  have hemp : findPlaceholders d = [] := by
    rw [findPlaceholders]
    have : (allParas d).flatMap (fun p => extractAll p.text) = [] :=
      List.flatMap_eq_nil_iff.mpr h
    rw [this]
    rfl
  refine ⟨hemp, fun fs llm => ?_, fun fs llm llm' => ?_⟩
  · rw [pipeline]
    simp [hemp]
  · rw [pipeline, pipeline]
    simp [hemp]

theorem claim_C8_witness :
    findPlaceholders ⟨[⟨[⟨['h', 'i'], 0⟩]⟩], [], []⟩ = []
    ∧ pipeline ⟨[⟨[⟨['h', 'i'], 0⟩]⟩], [], []⟩ [] (fun _ _ => .error []) =
        .error .noPlaceholders := by
  have hscan : ∀ p ∈ allParas ⟨[⟨[⟨['h', 'i'], 0⟩]⟩], [], []⟩, extractAll p.text = [] := by
    intro p hp
    simp only [allParas, tableParas, sectionParas] at hp
    simp at hp
    subst hp
    simp [Para.text, extractAll, findDD, findBR, findSB]
  exact ⟨(claim_C8 _ hscan).1, (claim_C8 _ hscan).2.1 _ _⟩



/-! ### Extraction of multiple reports (C4, C9) -/

/-- The entry `extract_text_from_multiple_pdfs` produces for one file. -/
def entryOf (f : PdfFile) : Str × Str :=
  (f.name, match f.content with | .ok t => t | .error e => errText e)

theorem dictInsert_fresh {acc : List (Str × Str)} {k : Str}
    (h : ∀ kv ∈ acc, kv.1 ≠ k) (v : Str) : dictInsert acc k v = acc ++ [(k, v)] := by
  rw [dictInsert, if_neg]
  simp only [List.any_eq_true, not_exists, not_and]
  intro kv hkv
  simpa using h kv hkv

theorem extractMulti_go : ∀ (fs : List PdfFile) (acc : List (Str × Str)),
    (∀ kv ∈ acc, ¬ kv.1 ∈ fs.map PdfFile.name) → (fs.map PdfFile.name).Nodup →
    fs.foldl (fun acc f =>
      dictInsert acc f.name (match f.content with
        | .ok t => t
        | .error e => errText e)) acc = acc ++ fs.map entryOf := by
  intro fs
  induction fs with
  | nil => intro acc _ _; simp
  | cons f fs ih =>
    intro acc hdisj hnd
    rw [List.foldl_cons]
    have hfresh : ∀ kv ∈ acc, kv.1 ≠ f.name := by
      intro kv hkv
      have := hdisj kv hkv
      simp only [List.map_cons, List.mem_cons, not_or] at this
      exact this.1
    rw [dictInsert_fresh hfresh]
    rw [List.map_cons] at hnd
    have hnd' := List.nodup_cons.mp hnd
    have hconv : acc ++ [(f.name, match f.content with | .ok t => t | .error e => errText e)]
        = acc ++ [entryOf f] := rfl
    rw [hconv, ih (acc ++ [entryOf f]) ?_ hnd'.2]
    · simp
    · intro kv hkv
      rcases List.mem_append.mp hkv with h | h
      · have := hdisj kv h
        simp only [List.map_cons, List.mem_cons, not_or] at this
        exact this.2
      · simp only [List.mem_singleton] at h
        subst h
        exact hnd'.1

/-- With pairwise-distinct filenames, `extract_text_from_multiple_pdfs` maps
each file, in order, to its text or to its `"Error: ..."` record. -/
theorem extractMulti_nodup_eq (fs : List PdfFile) (h : (fs.map PdfFile.name).Nodup) :
    extractMulti fs = fs.map entryOf := by
  have := extractMulti_go fs [] (by simp) h
  simpa [extractMulti] using this

theorem step2_ok_of_ne_one {fs : List PdfFile} (h : fs.length ≠ 1) :
    step2 fs = .ok (combineTexts (extractMulti fs)) := by
  match fs with
  | [] => rfl
  | [f] => exact absurd rfl h
  | f1 :: f2 :: r => rfl



/-- A template document whose single body paragraph reads `{X}`. -/
def cDoc : Doc := ⟨[⟨[⟨['{', 'X', '}'], 0⟩]⟩], [], []⟩

/-- A report whose extraction succeeds with text `t`. -/
def cOk : PdfFile := ⟨['a'], .ok ['t']⟩

/-- A report whose extraction raises `bm`. -/
def cBad : PdfFile := ⟨['b'], .error ['b', 'm']⟩

/-- A collaborator answering `{"X": "v"}`. -/
def cLlm : List Str → Str → Except Str (List (Str × Str)) :=
  fun _ _ => .ok [(['X'], ['v'])]

theorem cDoc_scan : findPlaceholders cDoc = [['X']] := by
  simp [findPlaceholders, allParas, tableParas, sectionParas, cDoc, Para.text,
    extractAll, findDD, findBR, findSB, upChar, isPre, List.takeWhile]

/-- C4 counterexample: with two source reports of which the second fails to
extract, the run does not abort — the pipeline completes and produces an
output document. -/
theorem claim_C4_counterexample :
    cBad.content = .error ['b', 'm']
    ∧ (pipeline cDoc [cOk, cBad] cLlm).isOk = true := by
  refine ⟨rfl, ?_⟩
  rw [pipeline]
  rw [cDoc_scan]
  simp [step2, cLlm, Except.isOk, Except.toBool]

/-- C4 (amended): a failing single-report extraction aborts the run; an LLM
collaborator failure aborts the run; but with two or more reports a
per-report extraction failure never aborts — the file is recorded with an
`"Error: ..."` text entry and processing continues. -/
theorem claim_C4 :
    (∀ (d : Doc) (f : PdfFile) (e : Str) llm, findPlaceholders d ≠ [] →
        f.content = .error e → pipeline d [f] llm = .error (.extractErr e))
  ∧ (∀ (d : Doc) (fs : List PdfFile) llm (e : Str), fs.length ≠ 1 →
        pipeline d fs llm ≠ .error (.extractErr e))
  ∧ (∀ (fs : List PdfFile) (f : PdfFile) (e : Str), (fs.map PdfFile.name).Nodup →
        f ∈ fs → f.content = .error e → (f.name, errText e) ∈ extractMulti fs)
  ∧ (∀ (d : Doc) (fs : List PdfFile) llm (e t : Str), findPlaceholders d ≠ [] →
        step2 fs = .ok t → llm (findPlaceholders d) t = .error e →
        pipeline d fs llm = .error (.llmErr e)) := by
  refine ⟨?_, ?_, ?_, ?_⟩
  · intro d f e llm hps hf
    rw [pipeline, if_neg hps]
    have : step2 [f] = .error e := by rw [step2, hf]
    rw [this]
  · intro d fs llm e hlen
    rw [pipeline]
    by_cases hps : findPlaceholders d = []
    · rw [if_pos hps]
      intro hc
      cases hc
    · rw [if_neg hps, step2_ok_of_ne_one hlen]
      rcases hres : llm (findPlaceholders d) (combineTexts (extractMulti fs)) with e' | data <;>
        simp [hres]
  · intro fs f e hnd hf hferr
    rw [extractMulti_nodup_eq fs hnd]
    have : entryOf f = (f.name, errText e) := by rw [entryOf, hferr]
    exact this ▸ List.mem_map_of_mem entryOf hf
  · intro d fs llm e t hps hstep hllm
    rw [pipeline, if_neg hps, hstep]
    simp [hllm]

theorem claim_C4_witness :
    pipeline cDoc [cBad] cLlm = .error (.extractErr ['b', 'm'])
    ∧ pipeline cDoc [cOk, cBad] cLlm ≠ .error (.extractErr ['b', 'm'])
    ∧ (cBad.name, errText ['b', 'm']) ∈ extractMulti [cOk, cBad] :=
  ⟨claim_C4.1 cDoc cBad ['b', 'm'] cLlm (by rw [cDoc_scan]; simp) rfl,
   claim_C4.2.1 cDoc [cOk, cBad] cLlm ['b', 'm'] (by simp),
   claim_C4.2.2.1 [cOk, cBad] cBad ['b', 'm'] (by simp [cOk, cBad]) (by simp) rfl⟩



/-! ### Occurrence counting (C9) -/

theorem isPre_cons_ne {h c : Char} (hne : c ≠ h) (pt r : Str) :
    isPre (h :: pt) (c :: r) = false := by
  rw [isPre]
  simp [Ne.symm hne]

theorem countOcc_cons_ne {pat : Str} {h : Char} (hh : pat.head? = some h)
    {c : Char} (hne : c ≠ h) (r : Str) :
    countOcc pat (c :: r) = countOcc pat r := by
  match pat, hh with
  | h' :: pt, hh =>
    have : h' = h := by simpa using hh
    subst this
    rw [countOcc, isPre_cons_ne hne, if_neg (by simp)]
    omega

theorem countOcc_skip {pat : Str} {h : Char} (hh : pat.head? = some h)
    {u : Str} (hu : ∀ c ∈ u, c ≠ h) (z : Str) :
    countOcc pat (u ++ z) = countOcc pat z := by
  induction u with
  | nil => rfl
  | cons c u' ih =>
    rw [List.cons_append, countOcc_cons_ne hh (hu c (List.mem_cons_self c u'))]
    exact ih (fun x hx => hu x (List.mem_cons_of_mem c hx))

theorem isPre_self_append (p w : Str) : isPre p (p ++ w) = true := by
  induction p with
  | nil => rfl
  | cons a p ih => simp [isPre, ih]

theorem isPre_or_of_append {pat w v : Str} (h : isPre pat (w ++ v) = true) :
    isPre pat w = true ∨ isPre w pat = true := by
  induction pat generalizing w with
  | nil => exact Or.inl rfl
  | cons a pt ih =>
    match w with
    | [] => exact Or.inr rfl
    | b :: w' =>
      rw [List.cons_append, isPre, Bool.and_eq_true] at h
      rcases ih h.2 with h' | h'
      · exact Or.inl (by rw [isPre, h.1, h']; rfl)
      · refine Or.inr ?_
        rw [isPre, Bool.and_eq_true, beq_iff_eq]
        exact ⟨(beq_iff_eq.mp h.1).symm, h'⟩

theorem countOcc_block {pat : Str} :
    ∀ (u z : Str), u ≠ [] →
    (∀ k, 1 ≤ k → k < u.length → isPre pat (u.drop k ++ z) = false) →
    countOcc pat (u ++ z) = (if isPre pat (u ++ z) then 1 else 0) + countOcc pat z := by
  intro u
  induction u with
  | nil => intro z h; exact absurd rfl h
  | cons c u' ih =>
    intro z _ hk
    match u' with
    | [] => rw [List.cons_append, countOcc]; rfl
    | d :: u'' =>
      rw [List.cons_append, countOcc]
      have hrec := ih (z := z) (by simp) (fun k h1 h2 => by
        have := hk (k + 1) (by omega) (by simp at h2 ⊢; omega)
        simpa using this)
      rw [List.cons_append] at hrec ⊢
      rw [hrec]
      have hnot := hk 1 (by omega) (by simp)
      simp only [List.drop_succ_cons, List.drop_zero, List.cons_append] at hnot
      rw [hnot]
      simp



theorem combineTexts_two (n1 t1 n2 t2 : Str) :
    combineTexts [(n1, t1), (n2, t2)] =
      fileTag ++ n1 ++ '\n' :: (t1 ++ sepFull ++ fileTag ++ n2 ++ '\n' :: t2) := by
  simp [combineTexts, List.intercalate, List.intersperse]

theorem countOcc_self_block {pat w z : Str} (hpat : pat ≠ [])
    (hdec : ∀ k, k < (pat ++ w).length → 1 ≤ k →
      isPre pat ((pat ++ w).drop k) = false ∧ isPre ((pat ++ w).drop k) pat = false) :
    countOcc pat ((pat ++ w) ++ z) = 1 + countOcc pat z := by
  rw [countOcc_block (pat ++ w) z (by simp [hpat])]
  · have hself : isPre pat ((pat ++ w) ++ z) = true := by
      rw [List.append_assoc]
      exact isPre_self_append pat (w ++ z)
    rw [hself]
    simp
  · intro k h1 h2
    by_contra hc
    have hc' : isPre pat ((pat ++ w).drop k ++ z) = true := by
      simpa using hc
    rcases isPre_or_of_append hc' with h | h
    · exact absurd h (by simp [(hdec k h2 h1).1])
    · exact absurd h (by simp [(hdec k h2 h1).2])

theorem countOcc_self_block' {pat z : Str} (hpat : pat ≠ [])
    (hdec : ∀ k, k < pat.length → 1 ≤ k →
      isPre pat (pat.drop k) = false ∧ isPre (pat.drop k) pat = false) :
    countOcc pat (pat ++ z) = 1 + countOcc pat z := by
  rw [countOcc_block pat z hpat]
  · rw [isPre_self_append]
    simp
  · intro k h1 h2
    by_contra hc
    have hc' : isPre pat (pat.drop k ++ z) = true := by simpa using hc
    rcases isPre_or_of_append hc' with h | h
    · exact absurd h (by simp [(hdec k h2 h1).1])
    · exact absurd h (by simp [(hdec k h2 h1).2])

/-- A nonempty newline-free pattern cannot match across a newline: matching
a prefix of `u ++ '\n' :: z` is the same as matching a prefix of `u`. -/
theorem isPre_stop_nl : ∀ (pat : Str), ('\n' : Char) ∉ pat →
    ∀ (u z : Str), isPre pat (u ++ '\n' :: z) = isPre pat u := by
  intro pat
  induction pat with
  | nil => intro _ u z; rfl
  | cons a pt ih =>
    intro hnl u z
    match u with
    | [] =>
      have ha : ('\n' : Char) ≠ a := fun h => hnl (by rw [h]; exact List.mem_cons_self a pt)
      rw [List.nil_append, isPre_cons_ne ha pt z]
      rfl
    | b :: u' =>
      rw [List.cons_append, isPre, isPre]
      rw [ih (fun h => hnl (List.mem_cons_of_mem a h)) u' z]

/-- A pattern that is not a substring occurs at no position. -/
theorem countOcc_zero_of_not_sub {pat : Str} :
    ∀ {s : Str}, isSub pat s = false → countOcc pat s = 0 := by
  intro s
  induction s with
  | nil => intro _; rfl
  | cons c rest ih =>
    intro h
    rw [isSub, Bool.or_eq_false_iff] at h
    rw [countOcc, if_neg (by rw [h.1]; exact fun hc => Bool.false_ne_true hc)]
    rw [ih h.2]

/-- Counting occurrences of a nonempty newline-free pattern splits at every
newline: no occurrence can cross it. -/
theorem countOcc_split_nl {pat : Str} (hne : pat ≠ []) (hnl : ('\n' : Char) ∉ pat) :
    ∀ (u z : Str), countOcc pat (u ++ '\n' :: z) = countOcc pat u + countOcc pat z := by
  intro u z
  induction u with
  | nil =>
    rw [List.nil_append]
    have hfalse : isPre pat ('\n' :: z) = false := by
      match pat, hne with
      | a :: pt, _ =>
        exact isPre_cons_ne
          (fun h => hnl (by rw [← h]; exact List.mem_cons_self _ _)) pt z
    have hcons : countOcc pat ('\n' :: z)
        = (if isPre pat ('\n' :: z) then 1 else 0) + countOcc pat z := by
      rw [countOcc]
    rw [hcons, if_neg (by rw [hfalse]; exact fun hc => Bool.false_ne_true hc)]
    simp [countOcc]
  | cons c u' ih =>
    have hL : countOcc pat (c :: (u' ++ '\n' :: z))
        = (if isPre pat (c :: (u' ++ '\n' :: z)) then 1 else 0)
          + countOcc pat (u' ++ '\n' :: z) := by
      rw [countOcc]
    have hR : countOcc pat (c :: u')
        = (if isPre pat (c :: u') then 1 else 0) + countOcc pat u' := by
      rw [countOcc]
    have hcond : isPre pat (c :: (u' ++ '\n' :: z)) = isPre pat (c :: u') := by
      have := isPre_stop_nl pat hnl (c :: u') z
      simpa using this
    rw [List.cons_append, hL, hR, ih, hcond]
    omega

/-- C9 (amended): for two source reports with distinct filenames, the
combined text is the first entry, the separator block, and the second entry
in input order; when additionally the separator line does not occur as a
substring of either name or text, it occurs exactly once in the combined
text, and when `"File: "` does not occur as a substring of either name or
text, it occurs exactly twice. -/
theorem claim_C9 : ∀ (n1 t1 n2 t2 : Str),
    n1 ≠ n2 →
    combineTexts (extractMulti [⟨n1, .ok t1⟩, ⟨n2, .ok t2⟩])
      = fileTag ++ n1 ++ '\n' :: (t1 ++ sepFull ++ fileTag ++ n2 ++ '\n' :: t2)
    ∧ ((∀ s ∈ [n1, t1, n2, t2], isSub sepLine s = false) →
        countOcc sepLine (combineTexts (extractMulti [⟨n1, .ok t1⟩, ⟨n2, .ok t2⟩])) = 1)
    ∧ ((∀ s ∈ [n1, t1, n2, t2], isSub fileTag s = false) →
        countOcc fileTag (combineTexts (extractMulti [⟨n1, .ok t1⟩, ⟨n2, .ok t2⟩])) = 2) := by
  intro n1 t1 n2 t2 hne
  have hmulti : extractMulti [⟨n1, .ok t1⟩, ⟨n2, .ok t2⟩] = [(n1, t1), (n2, t2)] := by
    rw [extractMulti_nodup_eq]
    · rfl
    · simp [hne]
  have hcomb : combineTexts (extractMulti [⟨n1, .ok t1⟩, ⟨n2, .ok t2⟩])
      = fileTag ++ n1 ++ '\n' :: (t1 ++ sepFull ++ fileTag ++ n2 ++ '\n' :: t2) := by
    rw [hmulti, combineTexts_two]
  have hnorm : fileTag ++ n1 ++ '\n' :: (t1 ++ sepFull ++ fileTag ++ n2 ++ '\n' :: t2)
      = (fileTag ++ n1) ++ '\n' :: (t1 ++ '\n' :: ('\n' ::
          (sepLine ++ '\n' :: ('\n' :: ((fileTag ++ n2) ++ '\n' :: t2))))) := by
    simp [sepFull]
  refine ⟨hcomb, ?_, ?_⟩
  · intro hsub
    have hn1 := hsub n1 (by simp)
    have ht1 := hsub t1 (by simp)
    have hn2 := hsub n2 (by simp)
    have ht2 := hsub t2 (by simp)
    have hsne : sepLine ≠ [] := by decide
    have hsnl : ('\n' : Char) ∉ sepLine := by decide
    have hshead : sepLine.head? = some '=' := rfl
    rw [hcomb, hnorm]
    rw [countOcc_split_nl hsne hsnl]
    rw [countOcc_split_nl hsne hsnl]
    rw [countOcc_cons_ne hshead (by decide)]
    rw [countOcc_split_nl hsne hsnl]
    rw [countOcc_cons_ne hshead (by decide)]
    rw [countOcc_split_nl hsne hsnl]
    rw [countOcc_skip hshead (by decide : ∀ c ∈ fileTag, c ≠ '=')]
    rw [countOcc_skip hshead (by decide : ∀ c ∈ fileTag, c ≠ '=')]
    rw [countOcc_zero_of_not_sub hn1, countOcc_zero_of_not_sub ht1,
      countOcc_zero_of_not_sub hn2, countOcc_zero_of_not_sub ht2]
    have hone : countOcc sepLine sepLine = 1 := by decide
    rw [hone]
  · intro hsub
    have hn1 := hsub n1 (by simp)
    have ht1 := hsub t1 (by simp)
    have hn2 := hsub n2 (by simp)
    have ht2 := hsub t2 (by simp)
    have hfne : fileTag ≠ [] := by decide
    have hfnl : ('\n' : Char) ∉ fileTag := by decide
    have hfhead : fileTag.head? = some 'F' := rfl
    rw [hcomb, hnorm]
    rw [countOcc_split_nl hfne hfnl]
    rw [countOcc_split_nl hfne hfnl]
    rw [countOcc_cons_ne hfhead (by decide)]
    rw [countOcc_split_nl hfne hfnl]
    rw [countOcc_cons_ne hfhead (by decide)]
    rw [countOcc_split_nl hfne hfnl]
    rw [countOcc_self_block' hfne (by decide)]
    rw [countOcc_self_block' hfne (by decide)]
    rw [countOcc_zero_of_not_sub hn1, countOcc_zero_of_not_sub ht1,
      countOcc_zero_of_not_sub hn2, countOcc_zero_of_not_sub ht2]
    have hzero : countOcc fileTag sepLine = 0 := by decide
    rw [hzero]

/-- C9 counterexample: two source reports with the same filename collapse to a
single dictionary entry, so the combined text has no separator at all and only
one `"File: "` marker. -/
theorem claim_C9_counterexample :
    ([⟨['a'], .ok ['x']⟩, (⟨['a'], .ok ['y']⟩ : PdfFile)] : List PdfFile).length = 2
    ∧ combineTexts (extractMulti [⟨['a'], .ok ['x']⟩, ⟨['a'], .ok ['y']⟩])
        = fileTag ++ ['a'] ++ '\n' :: ['y']
    ∧ countOcc sepLine (combineTexts (extractMulti [⟨['a'], .ok ['x']⟩, ⟨['a'], .ok ['y']⟩])) = 0
    ∧ countOcc fileTag (combineTexts (extractMulti [⟨['a'], .ok ['x']⟩, ⟨['a'], .ok ['y']⟩])) = 1 := by
  refine ⟨rfl, by decide, by decide, by decide⟩

theorem claim_C9_witness :
    combineTexts (extractMulti [⟨['a'], .ok ['x']⟩, ⟨['b'], .ok ['y']⟩])
      = fileTag ++ ['a'] ++ '\n' :: (['x'] ++ sepFull ++ fileTag ++ ['b'] ++ '\n' :: ['y'])
    ∧ countOcc sepLine (combineTexts (extractMulti [⟨['a'], .ok ['x']⟩, ⟨['b'], .ok ['y']⟩])) = 1
    ∧ countOcc fileTag (combineTexts (extractMulti [⟨['a'], .ok ['x']⟩, ⟨['b'], .ok ['y']⟩])) = 2 :=
  ⟨(claim_C9 ['a'] ['x'] ['b'] ['y'] (by decide)).1,
   (claim_C9 ['a'] ['x'] ['b'] ['y'] (by decide)).2.1 (by decide),
   (claim_C9 ['a'] ['x'] ['b'] ['y'] (by decide)).2.2 (by decide)⟩



/-! ### Character classes and placeholder-token shape facts (C5, C10) -/

/-- An `[A-Z_]+` placeholder name. -/
def upStr (n : Str) : Prop := n ≠ [] ∧ ∀ c ∈ n, upChar c = true

/-- A substitution value containing no placeholder delimiter and at least one
character outside `[A-Z_]`. -/
def goodVal (v : Str) : Prop :=
  (∀ c ∈ v, delimChar c = false) ∧ ∃ c ∈ v, upChar c = false

theorem up_ne_of_delim {c d : Char} (hc : upChar c = true) (hd : delimChar d = true) :
    c ≠ d := by
  intro h
  subst h
  simp only [upChar, delimChar, Bool.or_eq_true, Bool.and_eq_true, decide_eq_true_eq,
    beq_iff_eq] at hc hd
  rcases hd with ((h | h) | h) | h <;> subst h <;> revert hc <;> decide

theorem nodelim_ne {c d : Char} (hc : delimChar c = false) (hd : delimChar d = true) :
    c ≠ d := by
  intro h
  subst h
  rw [hc] at hd
  cases hd

theorem tok_of_up {c : Char} (h : upChar c = true) : tokChar c = true := by
  simp [tokChar, h]

theorem tok_of_delim {c : Char} (h : delimChar c = true) : tokChar c = true := by
  simp [tokChar, h]

theorem not_tok {c : Char} (h1 : upChar c = false) (h2 : delimChar c = false) :
    tokChar c = false := by
  simp [tokChar, h1, h2]

theorem goodVal_ne_nil {v : Str} (hv : goodVal v) : v ≠ [] := by
  rcases hv.2 with ⟨c, hc, _⟩
  intro h
  subst h
  cases hc

/-! ### Basic prefix facts -/

theorem isPre_iff_append {p s : Str} : isPre p s = true ↔ ∃ t, s = p ++ t := by
  constructor
  · intro h
    induction p generalizing s with
    | nil => exact ⟨s, rfl⟩
    | cons a p ih =>
      match s with
      | [] => cases h
      | b :: s' =>
        rw [isPre, Bool.and_eq_true, beq_iff_eq] at h
        rcases ih h.2 with ⟨t, ht⟩
        exact ⟨t, by rw [ht, h.1]; rfl⟩
  · rintro ⟨t, rfl⟩
    exact isPre_self_append p t

theorem isPre_subset {p s : Str} (h : isPre p s = true) : ∀ c ∈ p, c ∈ s := by
  rcases isPre_iff_append.mp h with ⟨t, rfl⟩
  intro c hc
  exact List.mem_append.mpr (Or.inl hc)

theorem isPre_both {p q s : Str} (hp : isPre p s = true) (hq : isPre q s = true) :
    isPre p q = true ∨ isPre q p = true := by
  rcases isPre_iff_append.mp hq with ⟨t, rfl⟩
  exact isPre_or_of_append hp

theorem isPre_length_le {p s : Str} (h : isPre p s = true) : p.length ≤ s.length := by
  rcases isPre_iff_append.mp h with ⟨t, rfl⟩
  simp

theorem isPre_drop_of_isPre_append {pat : Str} {u z : Str} {k : Nat} (hk : k ≤ u.length)
    (h : isPre pat ((u ++ z).drop k) = true) : isPre pat (u.drop k ++ z) = true := by
  rwa [List.drop_append_of_le_length hk] at h

/-! ### Shape facts about the three formats of an `[A-Z_]+` name -/

theorem form_ne_nil {n : Str} {f : Str} (hf : f ∈ formats n) : f ≠ [] := by
  rcases List.mem_cons.mp hf with h | hf'
  · subst h; simp [ddForm]
  rcases List.mem_cons.mp hf' with h | hf''
  · subst h; simp [brForm]
  rcases List.mem_cons.mp hf'' with h | hf'''
  · subst h; simp [sbForm]
  · cases hf'''

theorem form_head_delim {n : Str} {f : Str} (hf : f ∈ formats n) :
    ∃ d, f.head? = some d ∧ delimChar d = true := by
  rcases List.mem_cons.mp hf with h | hf'
  · subst h; exact ⟨'{', rfl, by decide⟩
  rcases List.mem_cons.mp hf' with h | hf''
  · subst h; exact ⟨'[', rfl, by decide⟩
  rcases List.mem_cons.mp hf'' with h | hf'''
  · subst h; exact ⟨'{', rfl, by decide⟩
  · cases hf'''

theorem form_getLast_delim {n : Str} {f : Str} (hf : f ∈ formats n) :
    ∃ d, f.getLast? = some d ∧ delimChar d = true := by
  rcases List.mem_cons.mp hf with h | hf'
  · subst h
    refine ⟨'}', ?_, by decide⟩
    have : ddForm n = ('{' :: '{' :: (n ++ ['}'])) ++ ['}'] := by simp [ddForm]
    rw [this, List.getLast?_concat]
  rcases List.mem_cons.mp hf' with h | hf''
  · subst h
    refine ⟨']', ?_, by decide⟩
    have : brForm n = ('[' :: n) ++ [']'] := by simp [brForm]
    rw [this, List.getLast?_concat]
  rcases List.mem_cons.mp hf'' with h | hf'''
  · subst h
    refine ⟨'}', ?_, by decide⟩
    have : sbForm n = ('{' :: n) ++ ['}'] := by simp [sbForm]
    rw [this, List.getLast?_concat]
  · cases hf'''

theorem form_tokAll {n : Str} (hn : ∀ c ∈ n, upChar c = true) {f : Str}
    (hf : f ∈ formats n) : ∀ c ∈ f, tokChar c = true := by
  have base : ∀ c ∈ n, tokChar c = true := fun c hc => tok_of_up (hn c hc)
  rcases List.mem_cons.mp hf with h | hf'
  · subst h
    intro c hc
    simp only [ddForm, List.mem_cons, List.mem_append, List.mem_singleton,
      List.not_mem_nil, or_false] at hc
    rcases hc with rfl | rfl | h | rfl | rfl
    all_goals first | decide | exact base _ h
  rcases List.mem_cons.mp hf' with h | hf''
  · subst h
    intro c hc
    simp only [brForm, List.mem_cons, List.mem_append, List.mem_singleton,
      List.not_mem_nil, or_false] at hc
    rcases hc with rfl | h | rfl
    all_goals first | decide | exact base _ h
  rcases List.mem_cons.mp hf'' with h | hf'''
  · subst h
    intro c hc
    simp only [sbForm, List.mem_cons, List.mem_append, List.mem_singleton,
      List.not_mem_nil, or_false] at hc
    rcases hc with rfl | h | rfl
    all_goals first | decide | exact base _ h
  · cases hf'''



/-! ### Placeholder tokens of distinct names never overlap -/

theorem upClose {close : Char} (hcl : upChar close = false) :
    ∀ {A B : Str} (_ : ∀ c ∈ A, upChar c = true) (_ : ∀ c ∈ B, upChar c = true)
      {x y : Str}, isPre (A ++ close :: x) (B ++ close :: y) = true → A = B := by
  intro A
  induction A with
  | nil =>
    intro B _ hB x y h
    match B with
    | [] => rfl
    | b :: B' =>
      rw [List.nil_append, List.cons_append, isPre, Bool.and_eq_true, beq_iff_eq] at h
      have := hB b (List.mem_cons_self b B')
      rw [← h.1] at this
      rw [this] at hcl
      cases hcl
  | cons a A' ih =>
    intro B hA hB x y h
    match B with
    | [] =>
      rw [List.cons_append, List.nil_append, isPre, Bool.and_eq_true, beq_iff_eq] at h
      have := hA a (List.mem_cons_self a A')
      rw [h.1] at this
      rw [this] at hcl
      cases hcl
    | b :: B' =>
      rw [List.cons_append, List.cons_append, isPre, Bool.and_eq_true, beq_iff_eq] at h
      have heq := ih (fun c hc => hA c (List.mem_cons_of_mem a hc))
        (fun c hc => hB c (List.mem_cons_of_mem b hc)) h.2
      rw [h.1, heq]

/-- If some format of name `A` is a string prefix of some format of name `B`
(both `[A-Z_]+` names), then `A = B`. -/
theorem form_isPre_form {A B : Str} (hA : upStr A) (hB : upStr B) {f g : Str}
    (hf : f ∈ formats A) (hg : g ∈ formats B) (h : isPre f g = true) : A = B := by
  have hAup := hA.2
  have hBup := hB.2
  rcases List.mem_cons.mp hf with rfl | hf'
  · rcases List.mem_cons.mp hg with rfl | hg'
    · -- dd A in dd B
      rw [ddForm, ddForm, isPre, isPre] at h
      simp only [Bool.and_eq_true, beq_self_eq_true, true_and] at h
      have : A ++ '}' :: ['}'] = A ++ ['}', '}'] := rfl
      rw [← this] at h
      exact upClose (by decide) hAup hBup h
    rcases List.mem_cons.mp hg' with rfl | hg''
    · rw [ddForm, brForm, isPre] at h; cases h
    rcases List.mem_cons.mp hg'' with rfl | hg'''
    · -- dd A in sb B : second char of dd is '{', second of sb is B.head
      rw [ddForm, sbForm, isPre] at h
      simp only [Bool.and_eq_true, beq_self_eq_true, true_and] at h
      match B, hB.1 with
      | b :: B', _ =>
        rw [List.cons_append, isPre, Bool.and_eq_true, beq_iff_eq] at h
        have := hBup b (List.mem_cons_self b B')
        rw [← h.1] at this
        cases this
    · cases hg'''
  rcases List.mem_cons.mp hf' with rfl | hf''
  · rcases List.mem_cons.mp hg with rfl | hg'
    · rw [brForm, ddForm, isPre] at h; cases h
    rcases List.mem_cons.mp hg' with rfl | hg''
    · -- br A in br B
      rw [brForm, brForm, isPre] at h
      simp only [Bool.and_eq_true, beq_self_eq_true, true_and] at h
      have h1 : A ++ ']' :: [] = A ++ [']'] := rfl
      have h2 : B ++ ']' :: [] = B ++ [']'] := rfl
      rw [← h1, ← h2] at h
      exact upClose (by decide) hAup hBup h
    rcases List.mem_cons.mp hg'' with rfl | hg'''
    · rw [brForm, sbForm, isPre] at h; cases h
    · cases hg'''
  rcases List.mem_cons.mp hf'' with rfl | hf'''
  · rcases List.mem_cons.mp hg with rfl | hg'
    · -- sb A in dd B : A.head vs '{'
      rw [sbForm, ddForm, isPre] at h
      simp only [Bool.and_eq_true, beq_self_eq_true, true_and] at h
      match A, hA.1 with
      | a :: A', _ =>
        rw [List.cons_append, isPre, Bool.and_eq_true, beq_iff_eq] at h
        have := hAup a (List.mem_cons_self a A')
        rw [h.1] at this
        cases this
    rcases List.mem_cons.mp hg' with rfl | hg''
    · rw [sbForm, brForm, isPre] at h; cases h
    rcases List.mem_cons.mp hg'' with rfl | hg'''
    · -- sb A in sb B
      rw [sbForm, sbForm, isPre] at h
      simp only [Bool.and_eq_true, beq_self_eq_true, true_and] at h
      have h1 : A ++ '}' :: [] = A ++ ['}'] := rfl
      have h2 : B ++ '}' :: [] = B ++ ['}'] := rfl
      rw [← h1, ← h2] at h
      exact upClose (by decide) hAup hBup h
    · cases hg'''
  · cases hf'''



theorem isPre_false_head {g : Str} {gh : Char} (hg : g.head? = some gh) {w : Str} {c : Char}
    (hw : w.head? = some c) (hne : c ≠ gh) (y : Str) : isPre g (w ++ y) = false := by
  match g, hg, w, hw with
  | gh' :: g', hg, c' :: w', hw =>
    have h1 : gh' = gh := by simpa using hg
    have h2 : c' = c := by simpa using hw
    subst h1; subst h2
    rw [List.cons_append]
    exact isPre_cons_ne hne g' (w' ++ y)

theorem head?_drop_mem {l : List Char} {p : Nat} (hp : p < l.length) :
    ∃ c, (l.drop p).head? = some c ∧ c ∈ l := by
  match hd : l.drop p with
  | [] =>
    have : l.length - p = 0 := by
      have := List.length_drop p l
      rw [hd] at this
      simpa using this.symm
    omega
  | c :: w =>
    refine ⟨c, rfl, ?_⟩
    have : c ∈ l.drop p := by rw [hd]; exact List.mem_cons_self c w
    exact List.drop_subset p l this

/-- The character at offset `p ≥ 1` in `[A]` is in `[A-Z_]` or is `]`. -/
theorem drop_head_br {A : Str} (hA : ∀ c ∈ A, upChar c = true) {p : Nat}
    (h1 : 1 ≤ p) (h2 : p < (brForm A).length) :
    ∃ c, ((brForm A).drop p).head? = some c ∧ (upChar c = true ∨ c = ']') := by
  match p, h1 with
  | p' + 1, _ =>
    rw [brForm, List.drop_succ_cons]
    have hlen : p' < (A ++ [']']).length := by
      rw [brForm] at h2
      simp only [List.length_cons] at h2
      omega
    obtain ⟨c, hc, hcm⟩ := head?_drop_mem hlen
    refine ⟨c, hc, ?_⟩
    rcases List.mem_append.mp hcm with h | h
    · exact Or.inl (hA _ h)
    · exact Or.inr (by simpa using h)

/-- The character at offset `p ≥ 1` in `{A}` is in `[A-Z_]` or is `}`. -/
theorem drop_head_sb {A : Str} (hA : ∀ c ∈ A, upChar c = true) {p : Nat}
    (h1 : 1 ≤ p) (h2 : p < (sbForm A).length) :
    ∃ c, ((sbForm A).drop p).head? = some c ∧ (upChar c = true ∨ c = '}') := by
  match p, h1 with
  | p' + 1, _ =>
    rw [sbForm, List.drop_succ_cons]
    have hlen : p' < (A ++ ['}']).length := by
      rw [sbForm] at h2
      simp only [List.length_cons] at h2
      omega
    obtain ⟨c, hc, hcm⟩ := head?_drop_mem hlen
    refine ⟨c, hc, ?_⟩
    rcases List.mem_append.mp hcm with h | h
    · exact Or.inl (hA _ h)
    · exact Or.inr (by simpa using h)

/-- The character at offset `p ≥ 2` in `{{A}}` is in `[A-Z_]` or is `}`. -/
theorem drop_head_dd {A : Str} (hA : ∀ c ∈ A, upChar c = true) {p : Nat}
    (h1 : 2 ≤ p) (h2 : p < (ddForm A).length) :
    ∃ c, ((ddForm A).drop p).head? = some c ∧ (upChar c = true ∨ c = '}') := by
  match p, h1 with
  | p' + 2, _ =>
    rw [ddForm, List.drop_succ_cons, List.drop_succ_cons]
    have hlen : p' < (A ++ ['}', '}']).length := by
      rw [ddForm] at h2
      simp only [List.length_cons] at h2
      omega
    obtain ⟨c, hc, hcm⟩ := head?_drop_mem hlen
    refine ⟨c, hc, ?_⟩
    rcases List.mem_append.mp hcm with h | h
    · exact Or.inl (hA _ h)
    · simp only [List.mem_cons, List.mem_singleton, List.not_mem_nil, or_false] at h
      rcases h with rfl | rfl <;> exact Or.inr rfl

theorem form_head_cases {B : Str} {g : Str} (hg : g ∈ formats B) :
    ∃ gh, g.head? = some gh ∧ (gh = '{' ∨ gh = '[') := by
  rcases List.mem_cons.mp hg with rfl | hg'
  · exact ⟨'{', rfl, Or.inl rfl⟩
  rcases List.mem_cons.mp hg' with rfl | hg''
  · exact ⟨'[', rfl, Or.inr rfl⟩
  rcases List.mem_cons.mp hg'' with rfl | hg'''
  · exact ⟨'{', rfl, Or.inl rfl⟩
  · cases hg'''

theorem up_or_close_ne_open {c : Char} {cl gh : Char}
    (hcl : delimChar cl = true) (hc : upChar c = true ∨ c = cl)
    (hgh : gh = '{' ∨ gh = '[') (hclgh : cl ≠ gh) : c ≠ gh := by
  rcases hc with h | rfl
  · rcases hgh with rfl | rfl
    · exact up_ne_of_delim h (by decide)
    · exact up_ne_of_delim h (by decide)
  · exact hclgh



/-- No format of `B` can match starting strictly inside an occurrence of a
format of `A`, for distinct `[A-Z_]+` names. -/
theorem no_interior_match {A B : Str} (hA : upStr A) (hB : upStr B) (hAB : A ≠ B)
    {f g : Str} (hf : f ∈ formats A) (hg : g ∈ formats B) :
    ∀ p, 1 ≤ p → p < f.length → ∀ y, isPre g (f.drop p ++ y) = false := by
  intro p h1 h2 y
  obtain ⟨gh, hgh, hghc⟩ := form_head_cases hg
  rcases List.mem_cons.mp hf with rfl | hf'
  · -- f = {{A}}
    match p, h1 with
    | 1, _ =>
      -- the character after the first `{` is `{` again
      rcases hghc with rfl | rfl
      · -- g starts with '{' : analyse the shapes of g
        rcases List.mem_cons.mp hg with rfl | hg'
        · -- g = {{B}} : after matching two braces we would need A to start with '{'
          have ha : ∃ a A', A = a :: A' := by
            match A, hA.1 with
            | a :: A', _ => exact ⟨a, A', rfl⟩
          obtain ⟨a, A', rfl⟩ := ha
          have hane : a ≠ '{' :=
            up_ne_of_delim (hA.2 a (List.mem_cons_self a A')) (by decide)
          rw [ddForm, ddForm]
          rw [show (('{' :: '{' :: (a :: A' ++ ['}', '}'])).drop 1)
              = '{' :: (a :: (A' ++ ['}', '}'])) from rfl]
          rw [List.cons_append, isPre, List.cons_append]
          rw [isPre_cons_ne hane]
          simp
        rcases List.mem_cons.mp hg' with rfl | hg''
        · rw [brForm] at hgh; cases hgh
        rcases List.mem_cons.mp hg'' with rfl | hg'''
        · -- g = {B} inside {{A}} at offset 1 forces B = A
          rw [ddForm, sbForm]
          rw [show (('{' :: '{' :: (A ++ ['}', '}'])).drop 1) = '{' :: (A ++ ['}', '}']) from rfl]
          rw [List.cons_append, isPre]
          simp only [beq_self_eq_true, Bool.true_and]
          by_contra hcon
          rw [Bool.not_eq_false] at hcon
          have h' : isPre (B ++ '}' :: []) (A ++ '}' :: ('}' :: y)) = true := by
            have heq : (A ++ ['}', '}']) ++ y = A ++ '}' :: ('}' :: y) := by simp
            rw [← heq]
            exact hcon
          have := upClose (by decide) hB.2 hA.2 h'
          exact hAB this.symm
        · cases hg'''
      · -- g starts with '[' : the char at offset 1 of {{A}} is '{'
        have hhd : ((ddForm A).drop 1).head? = some '{' := rfl
        rw [isPre_false_head hgh hhd (by decide) y]
    | p' + 2, _ =>
      obtain ⟨c, hc, hcc⟩ := drop_head_dd hA.2 (by omega) h2
      have hne : c ≠ gh := up_or_close_ne_open (by decide) hcc hghc (by
        rcases hghc with rfl | rfl <;> decide)
      rw [isPre_false_head hgh hc hne y]
  rcases List.mem_cons.mp hf' with rfl | hf''
  · obtain ⟨c, hc, hcc⟩ := drop_head_br hA.2 h1 h2
    have hne : c ≠ gh := up_or_close_ne_open (by decide) hcc hghc (by
      rcases hghc with rfl | rfl <;> decide)
    rw [isPre_false_head hgh hc hne y]
  rcases List.mem_cons.mp hf'' with rfl | hf'''
  · obtain ⟨c, hc, hcc⟩ := drop_head_sb hA.2 h1 h2
    have hne : c ≠ gh := up_or_close_ne_open (by decide) hcc hghc (by
      rcases hghc with rfl | rfl <;> decide)
    rw [isPre_false_head hgh hc hne y]
  · cases hf'''



/-- `[N]` never matches strictly inside `{{N}}`. -/
theorem no_interior_br_in_dd {N : Str} (hN : ∀ c ∈ N, upChar c = true) :
    ∀ p, 1 ≤ p → p < (ddForm N).length → ∀ y, isPre (brForm N) ((ddForm N).drop p ++ y) = false := by
  intro p h1 h2 y
  have hgh : (brForm N).head? = some '[' := rfl
  match p, h1 with
  | 1, _ =>
    have hhd : ((ddForm N).drop 1).head? = some '{' := rfl
    rw [isPre_false_head hgh hhd (by decide) y]
  | p' + 2, _ =>
    obtain ⟨c, hc, hcc⟩ := drop_head_dd hN (by omega) h2
    have hne : c ≠ '[' := by
      rcases hcc with h | rfl
      · exact up_ne_of_delim h (by decide)
      · decide
    rw [isPre_false_head hgh hc hne y]

/-- `{{N}}` never matches strictly inside `[N]`. -/
theorem no_interior_dd_in_br {N : Str} (hN : ∀ c ∈ N, upChar c = true) :
    ∀ p, 1 ≤ p → p < (brForm N).length → ∀ y, isPre (ddForm N) ((brForm N).drop p ++ y) = false := by
  intro p h1 h2 y
  have hgh : (ddForm N).head? = some '{' := rfl
  obtain ⟨c, hc, hcc⟩ := drop_head_br hN h1 h2
  have hne : c ≠ '{' := by
    rcases hcc with h | rfl
    · exact up_ne_of_delim h (by decide)
    · decide
  rw [isPre_false_head hgh hc hne y]

/-- `{N}` never matches strictly inside `[N]`. -/
theorem no_interior_sb_in_br {N : Str} (hN : ∀ c ∈ N, upChar c = true) :
    ∀ p, 1 ≤ p → p < (brForm N).length → ∀ y, isPre (sbForm N) ((brForm N).drop p ++ y) = false := by
  intro p h1 h2 y
  have hgh : (sbForm N).head? = some '{' := rfl
  obtain ⟨c, hc, hcc⟩ := drop_head_br hN h1 h2
  have hne : c ≠ '{' := by
    rcases hcc with h | rfl
    · exact up_ne_of_delim h (by decide)
    · decide
  rw [isPre_false_head hgh hc hne y]

/-- `[N]` never matches strictly inside `{N}`. -/
theorem no_interior_br_in_sb {N : Str} (hN : ∀ c ∈ N, upChar c = true) :
    ∀ p, 1 ≤ p → p < (sbForm N).length → ∀ y, isPre (brForm N) ((sbForm N).drop p ++ y) = false := by
  intro p h1 h2 y
  have hgh : (brForm N).head? = some '[' := rfl
  obtain ⟨c, hc, hcc⟩ := drop_head_sb hN h1 h2
  have hne : c ≠ '[' := by
    rcases hcc with h | rfl
    · exact up_ne_of_delim h (by decide)
    · decide
  rw [isPre_false_head hgh hc hne y]

/-! ### Separation of occurrences -/

/-- Occurrences of `f` and `g` never overlap, in any string. -/
def sepPats (f g : Str) : Prop :=
  ∀ (w : Str) (p q : Nat), isPre f (w.drop p) = true → isPre g (w.drop q) = true →
    p + f.length ≤ q ∨ q + g.length ≤ p

theorem sepPats_of_no_interior {f g : Str}
    (hboth : ∀ s, isPre f s = true → isPre g s = true → False)
    (hint1 : ∀ p, 1 ≤ p → p < f.length → ∀ y, isPre g (f.drop p ++ y) = false)
    (hint2 : ∀ p, 1 ≤ p → p < g.length → ∀ y, isPre f (g.drop p ++ y) = false) :
    sepPats f g := by
  intro w p q h1 h2
  by_contra hc
  push_neg at hc
  rcases le_or_lt p q with hle | hlt
  · rcases isPre_iff_append.mp h1 with ⟨rest, hrest⟩
    have hd : w.drop q = f.drop (q - p) ++ rest := by
      have h3 : w.drop q = (w.drop p).drop (q - p) := by
        rw [List.drop_drop]
        congr 1
        omega
      rw [h3, hrest, List.drop_append_of_le_length (by omega)]
    rcases Nat.eq_or_lt_of_le hle with rfl | hlt'
    · have : w.drop p = w.drop p := rfl
      exact hboth _ h1 (by simpa using h2)
    · have hq : 1 ≤ q - p := by omega
      have hlt2 : q - p < f.length := by omega
      rw [hd] at h2
      rw [hint1 (q - p) hq hlt2 rest] at h2
      cases h2
  · rcases isPre_iff_append.mp h2 with ⟨rest, hrest⟩
    have hd : w.drop p = g.drop (p - q) ++ rest := by
      have h3 : w.drop p = (w.drop q).drop (p - q) := by
        rw [List.drop_drop]
        congr 1
        omega
      rw [h3, hrest, List.drop_append_of_le_length (by omega)]
    have hq : 1 ≤ p - q := by omega
    have hlt2 : p - q < g.length := by omega
    rw [hd] at h1
    rw [hint2 (p - q) hq hlt2 rest] at h1
    cases h1

/-- Formats of distinct `[A-Z_]+` names never overlap. -/
theorem sep_forms_distinct {A B : Str} (hA : upStr A) (hB : upStr B) (hAB : A ≠ B)
    {f g : Str} (hf : f ∈ formats A) (hg : g ∈ formats B) : sepPats f g := by
  refine sepPats_of_no_interior ?_
    (fun p h1 h2 y => no_interior_match hA hB hAB hf hg p h1 h2 y)
    (fun p h1 h2 y => no_interior_match hB hA (fun h => hAB h.symm) hg hf p h1 h2 y)
  intro s h1 h2
  rcases isPre_both h1 h2 with h | h
  · exact hAB (form_isPre_form hA hB hf hg h)
  · exact hAB (form_isPre_form hB hA hg hf h).symm

theorem notboth_br_dd {N : Str} : ∀ s, isPre (brForm N) s = true → isPre (ddForm N) s = true → False := by
  intro s h1 h2
  match s with
  | [] => rw [brForm, isPre] at h1; cases h1
  | c :: s' =>
    rw [brForm, isPre, Bool.and_eq_true, beq_iff_eq] at h1
    rw [ddForm, isPre, Bool.and_eq_true, beq_iff_eq] at h2
    rw [← h1.1] at h2
    cases h2.1

theorem notboth_sb_br {N : Str} : ∀ s, isPre (sbForm N) s = true → isPre (brForm N) s = true → False := by
  intro s h1 h2
  match s with
  | [] => rw [sbForm, isPre] at h1; cases h1
  | c :: s' =>
    rw [sbForm, isPre, Bool.and_eq_true, beq_iff_eq] at h1
    rw [brForm, isPre, Bool.and_eq_true, beq_iff_eq] at h2
    rw [← h1.1] at h2
    cases h2.1

/-- `[N]` occurrences never overlap `{{N}}` occurrences. -/
theorem sep_br_dd {N : Str} (hN : ∀ c ∈ N, upChar c = true) :
    sepPats (brForm N) (ddForm N) :=
  sepPats_of_no_interior notboth_br_dd
    (fun p h1 h2 y => no_interior_dd_in_br hN p h1 h2 y)
    (fun p h1 h2 y => no_interior_br_in_dd hN p h1 h2 y)

/-- `{N}` occurrences never overlap `[N]` occurrences. -/
theorem sep_sb_br {N : Str} (hN : ∀ c ∈ N, upChar c = true) :
    sepPats (sbForm N) (brForm N) :=
  sepPats_of_no_interior notboth_sb_br
    (fun p h1 h2 y => no_interior_br_in_sb hN p h1 h2 y)
    (fun p h1 h2 y => no_interior_sb_in_br hN p h1 h2 y)



/-! ### How `str.replace` interacts with placeholder tokens -/

theorem eat_eq {p : Char} {pt : Str} {c : Char} {rest : Str}
    (h : isPre (p :: pt) (c :: rest) = true) :
    c :: rest = (p :: pt) ++ rest.drop pt.length := by
  rcases isPre_iff_append.mp h with ⟨t, ht⟩
  rw [List.cons_append] at ht
  have hc : c = p := by
    have := congrArg List.head? ht
    simpa using this
  have hrest : rest = pt ++ t := by
    have := congrArg List.tail ht
    simpa using this
  rw [hrest, List.drop_left, hc]
  simp

/-- Replacement by a value with no delimiters and a non-`[A-Z_]` character
cannot make a delimiter-terminated all-token string appear as a prefix. -/
theorem replAux_isPre_transfer {p : Char} {pt v : Str} (hv : goodVal v) :
    ∀ s π, (∀ c ∈ π, tokChar c = true) →
      (∀ d, π.getLast? = some d → delimChar d = true) →
      isPre π (replaceAllAux p pt v s) = true → isPre π s = true := by
  intro s
  induction s using replaceAllAux.induct p pt v with
  | case1 =>
    intro π _ _ h
    rw [replaceAllAux] at h
    match π with
    | [] => rfl
    | e :: π' => rw [isPre] at h; cases h
  | case2 c rest hmatch ih =>
    intro π htok hlast h
    rw [replaceAllAux, if_pos hmatch] at h
    match π with
    | [] => rfl
    | e :: π' =>
      exfalso
      rcases isPre_or_of_append h with h' | h'
      · have hne : (e :: π') ≠ [] := by simp
        obtain ⟨d, hd⟩ : ∃ d, (e :: π').getLast? = some d :=
          ⟨_, List.getLast?_eq_getLast _ hne⟩
        have hdelim := hlast d hd
        have hdv : d ∈ v := isPre_subset h' d (List.mem_of_getLast?_eq_some hd)
        have := hv.1 d hdv
        rw [this] at hdelim
        cases hdelim
      · rcases hv.2 with ⟨c0, hc0v, hc0up⟩
        have hc0π : c0 ∈ e :: π' := isPre_subset h' c0 hc0v
        have := htok c0 hc0π
        rw [not_tok hc0up (hv.1 c0 hc0v)] at this
        cases this
  | case3 c rest hmatch ih =>
    intro π htok hlast h
    rw [replaceAllAux, if_neg hmatch] at h
    match π with
    | [] => rfl
    | e :: π' =>
      rw [isPre, Bool.and_eq_true] at h ⊢
      refine ⟨h.1, ?_⟩
      refine ih π' (fun x hx => htok x (List.mem_cons_of_mem e hx)) ?_ h.2
      intro d hd
      refine hlast d ?_
      match π', hd with
      | x :: xs, hd => rw [List.getLast?_cons_cons]; exact hd

/-- Replacement cannot create an occurrence of a delimiter-headed,
delimiter-terminated all-token string: creation-freeness. -/
theorem replAux_isSub_transfer {p : Char} {pt v : Str} (hv : goodVal v)
    {π : Str} (hπne : π ≠ []) (hπtok : ∀ c ∈ π, tokChar c = true)
    (hπh : ∀ d, π.head? = some d → delimChar d = true)
    (hπl : ∀ d, π.getLast? = some d → delimChar d = true) :
    ∀ s, isSub π (replaceAllAux p pt v s) = true → isSub π s = true := by
  intro s
  induction s using replaceAllAux.induct p pt v with
  | case1 =>
    intro h
    rw [replaceAllAux] at h
    exact h
  | case2 c rest hmatch ih =>
    intro h
    rw [replaceAllAux, if_pos hmatch] at h
    -- h : isSub π (v ++ aux(rest.drop pt.length)) ; π cannot start inside v
    have hskip : ∀ (u : Str), (∀ x ∈ u, delimChar x = false) →
        isSub π (u ++ replaceAllAux p pt v (rest.drop pt.length)) = true →
        isSub π (replaceAllAux p pt v (rest.drop pt.length)) = true := by
      intro u
      induction u with
      | nil => intro _ h'; exact h'
      | cons x u' ihu =>
        intro hu h'
        rw [List.cons_append, isSub, Bool.or_eq_true] at h'
        rcases h' with h' | h'
        · exfalso
          match π, hπne with
          | e :: π'', _ =>
            rw [isPre, Bool.and_eq_true, beq_iff_eq] at h'
            have hde := hπh e rfl
            rw [h'.1] at hde
            rw [hu x (List.mem_cons_self x u')] at hde
            cases hde
        · exact ihu (fun z hz => hu z (List.mem_cons_of_mem x hz)) h'
    have h2 := hskip v hv.1 h
    have h3 := ih h2
    -- isSub of a drop extends to the whole list
    have hdrop : ∀ (n : Nat) (l : Str), isSub π (l.drop n) = true → isSub π l = true := by
      intro n
      induction n with
      | zero => intro l h'; simpa using h'
      | succ m ihn =>
        intro l h'
        match l with
        | [] => simpa using h'
        | x :: l' =>
          rw [List.drop_succ_cons] at h'
          rw [isSub, Bool.or_eq_true]
          exact Or.inr (ihn l' h')
    rw [isSub, Bool.or_eq_true]
    exact Or.inr (hdrop pt.length rest h3)
  | case3 c rest hmatch ih =>
    intro h
    rw [replaceAllAux, if_neg hmatch] at h
    rw [isSub, Bool.or_eq_true] at h ⊢
    rcases h with h | h
    · left
      match π, hπne with
      | e :: π'', _ =>
        rw [isPre, Bool.and_eq_true] at h ⊢
        refine ⟨h.1, ?_⟩
        refine replAux_isPre_transfer hv rest π''
          (fun x hx => hπtok x (List.mem_cons_of_mem e hx)) ?_ h.2
        intro d hd
        refine hπl d ?_
        match π'', hd with
        | x :: xs, hd => rw [List.getLast?_cons_cons]; exact hd
    · exact Or.inr (ih h)



theorem isSub_iff_drop {π s : Str} : isSub π s = true ↔ ∃ p, isPre π (s.drop p) = true := by
  induction s with
  | nil =>
    rw [isSub]
    exact ⟨fun h => ⟨0, h⟩, fun ⟨p, hp⟩ => by simpa using hp⟩
  | cons c rest ih =>
    rw [isSub, Bool.or_eq_true]
    constructor
    · rintro (h | h)
      · exact ⟨0, h⟩
      · rcases ih.mp h with ⟨p, hp⟩
        exact ⟨p + 1, by simpa using hp⟩
    · rintro ⟨p, hp⟩
      match p with
      | 0 => exact Or.inl (by simpa using hp)
      | p' + 1 =>
        rw [List.drop_succ_cons] at hp
        exact Or.inr (ih.mpr ⟨p', hp⟩)

theorem isSub_append_right {π : Str} (u : Str) {x : Str} (h : isSub π x = true) :
    isSub π (u ++ x) = true := by
  induction u with
  | nil => simpa using h
  | cons c u' ih =>
    rw [List.cons_append, isSub, Bool.or_eq_true]
    exact Or.inr ih

/-- If no occurrence of the pattern overlaps an occurrence of `σ`, the
occurrence survives replacement: destruction-freeness. -/
theorem replAux_isSub_preserve {p : Char} {pt v : Str}
    {σ : Str} (hσne : σ ≠ []) (hsep : sepPats σ (p :: pt)) :
    ∀ s, isSub σ s = true → isSub σ (replaceAllAux p pt v s) = true := by
  have presPre : ∀ (σ' rest : Str), isPre σ' rest = true →
      (∀ k, k < σ'.length → isPre (p :: pt) (rest.drop k) = false) →
      isPre σ' (replaceAllAux p pt v rest) = true := by
    intro σ'
    induction σ' with
    | nil => intro rest _ _; rfl
    | cons d σ'' ihs =>
      intro rest hpre hk
      match rest with
      | [] => rw [isPre] at hpre; cases hpre
      | r0 :: rest' =>
        have hnot : isPre (p :: pt) (r0 :: rest') = false := by
          have := hk 0 (by simp)
          simpa using this
        rw [replaceAllAux, if_neg (by rw [hnot]; exact fun h => Bool.false_ne_true h)]
        rw [isPre, Bool.and_eq_true] at hpre ⊢
        refine ⟨hpre.1, ?_⟩
        refine ihs rest' hpre.2 ?_
        intro k hkl
        have := hk (k + 1) (by simpa using Nat.succ_lt_succ hkl)
        simpa using this
  intro s
  induction s using replaceAllAux.induct p pt v with
  | case1 =>
    intro h
    rw [replaceAllAux]
    exact h
  | case2 c rest hmatch ih =>
    intro h
    rw [replaceAllAux, if_pos hmatch]
    rcases isSub_iff_drop.mp h with ⟨q, hq⟩
    have hpat0 : isPre (p :: pt) ((c :: rest).drop 0) = true := by simpa using hmatch
    have hsep0 := hsep (c :: rest) q 0 hq hpat0
    have hqge : (p :: pt).length ≤ q := by
      rcases hsep0 with h' | h'
      · exfalso
        have : σ.length ≠ 0 := by
          intro hz
          exact hσne (List.length_eq_zero.mp hz)
        omega
      · simpa using h'
    have heat := eat_eq hmatch
    have hsub : isSub σ (rest.drop pt.length) = true := by
      refine isSub_iff_drop.mpr ⟨q - (p :: pt).length, ?_⟩
      have : (c :: rest).drop q = (rest.drop pt.length).drop (q - (p :: pt).length) := by
        rw [heat, List.drop_append_eq_append_drop]
        rw [List.drop_eq_nil_of_le (by simpa using hqge)]
        simp
      rw [← this]
      exact hq
    exact isSub_append_right v (ih hsub)
  | case3 c rest hmatch ih =>
    intro h
    rw [replaceAllAux, if_neg hmatch]
    rw [isSub, Bool.or_eq_true] at h
    rcases h with h | h
    · rw [isSub, Bool.or_eq_true]
      left
      match σ, hσne, h with
      | e :: σ', _, h =>
        rw [isPre, Bool.and_eq_true] at h ⊢
        refine ⟨h.1, ?_⟩
        refine presPre σ' rest h.2 ?_
        intro k hkl
        by_contra hc
        rw [Bool.not_eq_false] at hc
        have hσ0 : isPre (e :: σ') ((c :: rest).drop 0) = true := by
          simp only [List.drop_zero]
          rw [isPre, Bool.and_eq_true]
          exact h
        have hpk : isPre (p :: pt) ((c :: rest).drop (k + 1)) = true := by
          simpa using hc
        have := hsep (c :: rest) 0 (k + 1) hσ0 hpk
        simp only [List.length_cons] at this
        omega
    · rw [isSub, Bool.or_eq_true]
      exact Or.inr (ih h)



/-- Replacement passes unchanged over a delimiter-free block. -/
theorem replAux_append_nodelim {p : Char} {pt v : Str} (hp : delimChar p = true)
    {u : Str} (hu : ∀ c ∈ u, delimChar c = false) (x : Str) :
    replaceAllAux p pt v (u ++ x) = u ++ replaceAllAux p pt v x := by
  induction u with
  | nil => simp
  | cons c u' ih =>
    rw [List.cons_append, replaceAllAux, if_neg]
    · rw [ih (fun z hz => hu z (List.mem_cons_of_mem c hz))]
      rfl
    · rw [isPre_cons_ne (nodelim_ne (hu c (List.mem_cons_self c u')) hp)]
      exact fun h => Bool.false_ne_true h

/-- Replacement passes unchanged over a block in which the pattern never
matches. -/
theorem replAux_skip_block {p : Char} {pt v : Str} :
    ∀ (u y : Str), (∀ k, k < u.length → isPre (p :: pt) (u.drop k ++ y) = false) →
    replaceAllAux p pt v (u ++ y) = u ++ replaceAllAux p pt v y := by
  intro u
  induction u with
  | nil => intro y _; simp
  | cons c u' ih =>
    intro y hk
    rw [List.cons_append, replaceAllAux, if_neg]
    · rw [ih y ?_]
      · rfl
      · intro k hkl
        have := hk (k + 1) (by simpa using Nat.succ_lt_succ hkl)
        simpa using this
    · have := hk 0 (by simp)
      simp only [List.drop_zero, List.cons_append] at this
      rw [this]
      exact fun h => Bool.false_ne_true h

/-- Unfolding: replacement consumes a leading occurrence of the pattern. -/
theorem replAux_eat {p : Char} {pt v : Str} (x : Str) :
    replaceAllAux p pt v ((p :: pt) ++ x) = v ++ replaceAllAux p pt v x := by
  have hpre : isPre (p :: pt) ((p :: pt) ++ x) = true := isPre_self_append _ _
  rw [List.cons_append, replaceAllAux, if_pos (by rw [← List.cons_append]; exact hpre)]
  have : (pt ++ x).drop pt.length = x := List.drop_left pt x
  rw [this]



/-- `str.replace` with two non-overlapping patterns and well-behaved values
commutes. -/
theorem replAll_comm {σ τ vA vB : Str}
    (hσne : σ ≠ []) (hτne : τ ≠ [])
    (hσtok : ∀ c ∈ σ, tokChar c = true) (hτtok : ∀ c ∈ τ, tokChar c = true)
    (hσh : ∀ d, σ.head? = some d → delimChar d = true)
    (hτh : ∀ d, τ.head? = some d → delimChar d = true)
    (hσl : ∀ d, σ.getLast? = some d → delimChar d = true)
    (hτl : ∀ d, τ.getLast? = some d → delimChar d = true)
    (hvA : goodVal vA) (hvB : goodVal vB)
    (hsep : sepPats σ τ) :
    ∀ s, replaceAll σ vA (replaceAll τ vB s) = replaceAll τ vB (replaceAll σ vA s) := by
  obtain ⟨s0, st, rfl⟩ : ∃ a l, σ = a :: l := by
    match σ, hσne with
    | a :: l, _ => exact ⟨a, l, rfl⟩
  obtain ⟨t0, tt, rfl⟩ : ∃ a l, τ = a :: l := by
    match τ, hτne with
    | a :: l, _ => exact ⟨a, l, rfl⟩
  have hσlen : 1 ≤ (s0 :: st).length := by simp
  have hτlen : 1 ≤ (t0 :: tt).length := by simp
  have hs0 : delimChar s0 = true := hσh s0 rfl
  have ht0 : delimChar t0 = true := hτh t0 rfl
  have hred : ∀ z, replaceAll (s0 :: st) vA z = replaceAllAux s0 st vA z := fun z => rfl
  have hredτ : ∀ z, replaceAll (t0 :: tt) vB z = replaceAllAux t0 tt vB z := fun z => rfl
  have main : ∀ n (s : Str), s.length ≤ n →
      replaceAllAux s0 st vA (replaceAllAux t0 tt vB s)
        = replaceAllAux t0 tt vB (replaceAllAux s0 st vA s) := by
    intro n
    induction n with
    | zero =>
      intro s hs
      match s, hs with
      | [], _ => rw [replaceAllAux, replaceAllAux, replaceAllAux]
    | succ n ihn =>
      intro s hs
      by_cases hσs : isPre (s0 :: st) s = true
      · obtain ⟨y, rfl⟩ := isPre_iff_append.mp hσs
        have hylen : y.length ≤ n := by
          rw [List.length_append] at hs
          simp only [List.length_cons] at hs
          omega
        have hτfalse : ∀ k, k < (s0 :: st).length →
            isPre (t0 :: tt) ((s0 :: st).drop k ++ y) = false := by
          intro k hkl
          by_contra hc
          rw [Bool.not_eq_false] at hc
          have hτk : isPre (t0 :: tt) (((s0 :: st) ++ y).drop k) = true := by
            rw [List.drop_append_of_le_length (by omega)]
            exact hc
          have hσ0 : isPre (s0 :: st) (((s0 :: st) ++ y).drop 0) = true := by
            simpa using hσs
          have := hsep ((s0 :: st) ++ y) 0 k hσ0 hτk
          simp only [List.length_cons] at this hkl
          omega
        rw [replAux_eat y]
        rw [replAux_append_nodelim ht0 hvA.1]
        rw [replAux_skip_block (s0 :: st) y hτfalse]
        rw [replAux_eat (replaceAllAux t0 tt vB y)]
        rw [ihn y hylen]
      by_cases hτs : isPre (t0 :: tt) s = true
      · obtain ⟨y, rfl⟩ := isPre_iff_append.mp hτs
        have hylen : y.length ≤ n := by
          rw [List.length_append] at hs
          simp only [List.length_cons] at hs
          omega
        have hσfalse : ∀ k, k < (t0 :: tt).length →
            isPre (s0 :: st) ((t0 :: tt).drop k ++ y) = false := by
          intro k hkl
          by_contra hc
          rw [Bool.not_eq_false] at hc
          have hσk : isPre (s0 :: st) (((t0 :: tt) ++ y).drop k) = true := by
            rw [List.drop_append_of_le_length (by omega)]
            exact hc
          have hτ0 : isPre (t0 :: tt) (((t0 :: tt) ++ y).drop 0) = true := by
            simpa using hτs
          have := hsep ((t0 :: tt) ++ y) k 0 hσk hτ0
          simp only [List.length_cons] at this hkl
          omega
        rw [replAux_eat y]
        rw [replAux_append_nodelim hs0 hvB.1]
        rw [replAux_skip_block (t0 :: tt) y hσfalse]
        rw [replAux_eat (replaceAllAux s0 st vA y)]
        rw [ihn y hylen]
      · match s with
        | [] => rw [replaceAllAux, replaceAllAux, replaceAllAux]
        | c :: rest =>
          have hrlen : rest.length ≤ n := by
            simp only [List.length_cons] at hs
            omega
          have hstep1 : replaceAllAux s0 st vA (c :: rest)
              = c :: replaceAllAux s0 st vA rest := by
            rw [replaceAllAux, if_neg hσs]
          have hstep2 : replaceAllAux t0 tt vB (c :: rest)
              = c :: replaceAllAux t0 tt vB rest := by
            rw [replaceAllAux, if_neg hτs]
          have hτnew : isPre (t0 :: tt) (c :: replaceAllAux s0 st vA rest) = false := by
            by_contra hc
            rw [Bool.not_eq_false, isPre, Bool.and_eq_true] at hc
            have htt : isPre tt rest = true := by
              refine replAux_isPre_transfer hvA rest tt
                (fun x hx => hτtok x (List.mem_cons_of_mem t0 hx)) ?_ hc.2
              intro d hd
              refine hτl d ?_
              match tt, hd with
              | x :: xs, hd => rw [List.getLast?_cons_cons]; exact hd
            have : isPre (t0 :: tt) (c :: rest) = true := by
              rw [isPre, Bool.and_eq_true]
              exact ⟨hc.1, htt⟩
            rw [this] at hτs
            exact hτs rfl
          have hσnew : isPre (s0 :: st) (c :: replaceAllAux t0 tt vB rest) = false := by
            by_contra hc
            rw [Bool.not_eq_false, isPre, Bool.and_eq_true] at hc
            have hst : isPre st rest = true := by
              refine replAux_isPre_transfer hvB rest st
                (fun x hx => hσtok x (List.mem_cons_of_mem s0 hx)) ?_ hc.2
              intro d hd
              refine hσl d ?_
              match st, hd with
              | x :: xs, hd => rw [List.getLast?_cons_cons]; exact hd
            have : isPre (s0 :: st) (c :: rest) = true := by
              rw [isPre, Bool.and_eq_true]
              exact ⟨hc.1, hst⟩
            rw [this] at hσs
            exact hσs rfl
          have hL : replaceAllAux s0 st vA (c :: replaceAllAux t0 tt vB rest)
              = c :: replaceAllAux s0 st vA (replaceAllAux t0 tt vB rest) := by
            rw [replaceAllAux, if_neg (by rw [hσnew]; exact fun h => Bool.false_ne_true h)]
          have hR : replaceAllAux t0 tt vB (c :: replaceAllAux s0 st vA rest)
              = c :: replaceAllAux t0 tt vB (replaceAllAux s0 st vA rest) := by
            rw [replaceAllAux, if_neg (by rw [hτnew]; exact fun h => Bool.false_ne_true h)]
          rw [hstep1, hstep2, hL, hR, ihn rest hrlen]
  intro s
  rw [hred, hredτ, hred, hredτ]
  exact main s.length s (Nat.le_refl _)



/-- The format `replace_in_paragraph` picks for a field on a given text. -/
def chooseForm (n t : Str) : Option Str := (formats n).find? (fun f => isSub f t)

theorem applyText_eq_choice (n v t : Str) :
    applyText n v t = match chooseForm n t with
      | some f => replaceAll f v t
      | none => t := by
  by_cases h1 : isSub (ddForm n) t <;> by_cases h2 : isSub (brForm n) t <;>
    by_cases h3 : isSub (sbForm n) t <;>
    simp [applyText, tryFormatsText, chooseForm, formats, List.find?, h1, h2, h3]

theorem form_head_delim_all {n f : Str} (hf : f ∈ formats n) :
    ∀ d, f.head? = some d → delimChar d = true := by
  obtain ⟨d0, hd0, hdel⟩ := form_head_delim hf
  intro d hd
  rw [hd0] at hd
  have : d0 = d := by injection hd
  rw [← this]
  exact hdel

theorem form_getLast_delim_all {n f : Str} (hf : f ∈ formats n) :
    ∀ d, f.getLast? = some d → delimChar d = true := by
  obtain ⟨d0, hd0, hdel⟩ := form_getLast_delim hf
  intro d hd
  rw [hd0] at hd
  have : d0 = d := by injection hd
  rw [← this]
  exact hdel

/-- Replacing one field's token does not change which formats of a distinct
field occur in the text. -/
theorem presence_stable {A B : Str} (hA : upStr A) (hB : upStr B) (hAB : A ≠ B)
    {vA : Str} (hvA : goodVal vA) {g : Str} (hg : g ∈ formats B) (t : Str) :
    isSub g (applyText A vA t) = isSub g t := by
  rw [applyText_eq_choice]
  cases hch : chooseForm A t with
  | none => rfl
  | some f =>
    have hf : f ∈ formats A := List.mem_of_find?_eq_some hch
    obtain ⟨f0, ft, rfl⟩ : ∃ a l, f = a :: l := by
      match f, form_ne_nil hf with
      | a :: l, _ => exact ⟨a, l, rfl⟩
    cases hgt : isSub g t with
    | true =>
      exact replAux_isSub_preserve (form_ne_nil hg)
        (sep_forms_distinct hB hA (fun h => hAB h.symm) hg hf) t hgt
    | false =>
      by_contra hc
      rw [Bool.not_eq_false] at hc
      have := replAux_isSub_transfer hvA (form_ne_nil hg)
        (form_tokAll hB.2 hg) (form_head_delim_all hg) (form_getLast_delim_all hg) t hc
      rw [this] at hgt
      cases hgt

theorem chooseForm_stable {A B : Str} (hA : upStr A) (hB : upStr B) (hAB : A ≠ B)
    {vA : Str} (hvA : goodVal vA) (t : Str) :
    chooseForm B (applyText A vA t) = chooseForm B t := by
  have e1 := presence_stable hA hB hAB hvA (g := ddForm B) (by simp [formats]) t
  have e2 := presence_stable hA hB hAB hvA (g := brForm B) (by simp [formats]) t
  have e3 := presence_stable hA hB hAB hvA (g := sbForm B) (by simp [formats]) t
  rw [chooseForm, chooseForm, formats]
  by_cases h1 : isSub (ddForm B) t <;> by_cases h2 : isSub (brForm B) t <;>
    by_cases h3 : isSub (sbForm B) t <;>
    simp [List.find?, e1, e2, e3, h1, h2, h3]

/-- Substitution of two distinct fields commutes at the text level. -/
theorem applyText_comm {A B vA vB : Str} (hA : upStr A) (hB : upStr B) (hAB : A ≠ B)
    (hvA : goodVal vA) (hvB : goodVal vB) (t : Str) :
    applyText A vA (applyText B vB t) = applyText B vB (applyText A vA t) := by
  have hstabA : chooseForm A (applyText B vB t) = chooseForm A t :=
    chooseForm_stable hB hA (fun h => hAB h.symm) hvB t
  have hstabB : chooseForm B (applyText A vA t) = chooseForm B t :=
    chooseForm_stable hA hB hAB hvA t
  rw [applyText_eq_choice A vA (applyText B vB t), hstabA,
    applyText_eq_choice B vB (applyText A vA t), hstabB]
  cases hcA : chooseForm A t with
  | none =>
    cases hcB : chooseForm B t with
    | none =>
      rw [applyText_eq_choice B vB t, hcB, applyText_eq_choice A vA t, hcA]
    | some g =>
      rw [applyText_eq_choice B vB t, hcB, applyText_eq_choice A vA t, hcA]
  | some f =>
    have hf : f ∈ formats A := List.mem_of_find?_eq_some hcA
    cases hcB : chooseForm B t with
    | none =>
      rw [applyText_eq_choice B vB t, hcB, applyText_eq_choice A vA t, hcA]
    | some g =>
      have hg : g ∈ formats B := List.mem_of_find?_eq_some hcB
      rw [applyText_eq_choice B vB t, hcB, applyText_eq_choice A vA t, hcA]
      exact replAll_comm (form_ne_nil hf) (form_ne_nil hg)
        (form_tokAll hA.2 hf) (form_tokAll hB.2 hg)
        (form_head_delim_all hf) (form_head_delim_all hg)
        (form_getLast_delim_all hf) (form_getLast_delim_all hg)
        hvA hvB (sep_forms_distinct hA hB hAB hf hg) t



theorem applyText_of_any_false {n v t : Str}
    (h : (formats n).any (fun f => isSub f t) = false) : applyText n v t = t := by
  rw [applyText]
  refine tryFormatsText_no_match ?_
  intro f hf
  by_contra hc
  rw [Bool.not_eq_false] at hc
  have : (formats n).any (fun f => isSub f t) = true := List.any_eq_true.mpr ⟨f, hf, hc⟩
  rw [h] at this
  cases this

theorem rewritePara_rewritePara (p : Para) (t1 t2 : Str) :
    rewritePara (rewritePara p t1) t2 = rewritePara p t2 := by
  match h : p.runs with
  | [] =>
    simp [rewritePara, h]
  | r :: rs =>
    simp only [rewritePara, h, List.map_map]
    have : ((fun q : Run => (⟨[], q.fmt⟩ : Run)) ∘ fun q : Run => (⟨[], q.fmt⟩ : Run))
        = fun q : Run => (⟨[], q.fmt⟩ : Run) := by
      funext q
      rfl
    rw [this]

theorem any_presence_stable {A B : Str} (hA : upStr A) (hB : upStr B) (hAB : A ≠ B)
    {vA : Str} (hvA : goodVal vA) (t : Str) :
    (formats B).any (fun f => isSub f (applyText A vA t))
      = (formats B).any (fun f => isSub f t) := by
  simp only [formats, List.any_cons, List.any_nil]
  rw [presence_stable hA hB hAB hvA (g := ddForm B) (by simp [formats]) t,
    presence_stable hA hB hAB hvA (g := brForm B) (by simp [formats]) t,
    presence_stable hA hB hAB hvA (g := sbForm B) (by simp [formats]) t]

/-- Substitution of two distinct fields commutes on a whole paragraph,
run structure included. -/
theorem replaceInParagraph_comm {A B vA vB : Str} (hA : upStr A) (hB : upStr B)
    (hAB : A ≠ B) (hvA : goodVal vA) (hvB : goodVal vB) (p : Para) :
    replaceInParagraph A vA (replaceInParagraph B vB p)
      = replaceInParagraph B vB (replaceInParagraph A vA p) := by
  have hBA : B ≠ A := fun h => hAB h.symm
  by_cases hAt : (formats A).any (fun f => isSub f p.text) = true
  · by_cases hBt : (formats B).any (fun f => isSub f p.text) = true
    · -- both fields match the paragraph
      have hinnerB : replaceInParagraph B vB p = rewritePara p (applyText B vB p.text) := by
        rw [replaceInParagraph_eq, if_pos hBt]
      have hinnerA : replaceInParagraph A vA p = rewritePara p (applyText A vA p.text) := by
        rw [replaceInParagraph_eq, if_pos hAt]
      rw [hinnerB, hinnerA]
      have htB : (rewritePara p (applyText B vB p.text)).text = applyText B vB p.text :=
        rewritePara_text _ _
      have htA : (rewritePara p (applyText A vA p.text)).text = applyText A vA p.text :=
        rewritePara_text _ _
      have hAofB : (formats A).any
          (fun f => isSub f (rewritePara p (applyText B vB p.text)).text) = true := by
        rw [htB, any_presence_stable hB hA hBA hvB]
        exact hAt
      have hBofA : (formats B).any
          (fun f => isSub f (rewritePara p (applyText A vA p.text)).text) = true := by
        rw [htA, any_presence_stable hA hB hAB hvA]
        exact hBt
      rw [replaceInParagraph_eq, if_pos hAofB, replaceInParagraph_eq, if_pos hBofA]
      rw [htB, htA, rewritePara_rewritePara, rewritePara_rewritePara]
      rw [applyText_comm hA hB hAB hvA hvB]
    · -- only A matches
      have hBfalse : (formats B).any (fun f => isSub f p.text) = false := by
        simpa using hBt
      have hinnerB : replaceInParagraph B vB p = p := by
        rw [replaceInParagraph_eq, if_neg (by rw [hBfalse]; exact fun h => Bool.false_ne_true h)]
      have hinnerA : replaceInParagraph A vA p = rewritePara p (applyText A vA p.text) := by
        rw [replaceInParagraph_eq, if_pos hAt]
      rw [hinnerB, hinnerA]
      have hBofA : (formats B).any
          (fun f => isSub f (rewritePara p (applyText A vA p.text)).text) = false := by
        rw [rewritePara_text, any_presence_stable hA hB hAB hvA]
        exact hBfalse
      have hout : replaceInParagraph B vB (rewritePara p (applyText A vA p.text))
          = rewritePara p (applyText A vA p.text) := by
        rw [replaceInParagraph_eq, if_neg (by rw [hBofA]; exact fun h => Bool.false_ne_true h)]
      rw [hout]
  · have hAfalse : (formats A).any (fun f => isSub f p.text) = false := by
      simpa using hAt
    have hinnerA : replaceInParagraph A vA p = p := by
      rw [replaceInParagraph_eq, if_neg (by rw [hAfalse]; exact fun h => Bool.false_ne_true h)]
    by_cases hBt : (formats B).any (fun f => isSub f p.text) = true
    · have hinnerB : replaceInParagraph B vB p = rewritePara p (applyText B vB p.text) := by
        rw [replaceInParagraph_eq, if_pos hBt]
      rw [hinnerA, hinnerB]
      have hAofB : (formats A).any
          (fun f => isSub f (rewritePara p (applyText B vB p.text)).text) = false := by
        rw [rewritePara_text, any_presence_stable hB hA hBA hvB]
        exact hAfalse
      have hout : replaceInParagraph A vA (rewritePara p (applyText B vB p.text))
          = rewritePara p (applyText B vB p.text) := by
        rw [replaceInParagraph_eq, if_neg (by rw [hAofB]; exact fun h => Bool.false_ne_true h)]
      rw [hout]
    · have hBfalse : (formats B).any (fun f => isSub f p.text) = false := by
        simpa using hBt
      have hinnerB : replaceInParagraph B vB p = p := by
        rw [replaceInParagraph_eq, if_neg (by rw [hBfalse]; exact fun h => Bool.false_ne_true h)]
      rw [hinnerB, hinnerA, hinnerB]

theorem mapDocParas_comm {g h : Para → Para} (hc : ∀ p, g (h p) = h (g p)) (d : Doc) :
    mapDocParas g (mapDocParas h d) = mapDocParas h (mapDocParas g d) := by
  have hgh : (fun p => g (h p)) = (fun p => h (g p)) := funext hc
  cases d with
  | mk paras tables sections =>
    simp only [mapDocParas, List.map_map, Function.comp_def, hgh]



/-- C5 (amended): substitution is order-independent across distinct fields
when every field name is a nonempty `[A-Z_]+` string, names are pairwise
distinct, and every value contains no bracket or brace character and at least
one character outside `[A-Z_]`. Both the whole document and each paragraph's
concatenated text are permutation-invariant. -/
theorem claim_C5 : ∀ (d : Doc) (data data' : List (Str × Str)),
    data.Perm data' →
    (∀ kv ∈ data, (kv.1 ≠ [] ∧ ∀ c ∈ kv.1, upChar c = true)
      ∧ (∀ c ∈ kv.2, delimChar c = false) ∧ (∃ c ∈ kv.2, upChar c = false)) →
    data.Pairwise (fun a b => a.1 ≠ b.1) →
    replacePlaceholders data d = replacePlaceholders data' d
    ∧ docTexts (replacePlaceholders data d) = docTexts (replacePlaceholders data' d) := by
  intro d data data' hperm hgood hpw
  have hmain : replacePlaceholders data d = replacePlaceholders data' d := by
    rw [replacePlaceholders, replacePlaceholders]
    refine hperm.foldl_eq' ?_ d
    intro x hx y hy z
    by_cases hxy : x = y
    · subst hxy
      rfl
    · have hsymm : Symmetric (fun (a b : Str × Str) => a.1 ≠ b.1) := by
        intro a b h heq
        exact h heq.symm
      have hne : x.1 ≠ y.1 := List.Pairwise.forall hsymm hpw hx hy hxy
      have hx1 := hgood x hx
      have hy1 := hgood y hy
      exact mapDocParas_comm (fun p =>
        replaceInParagraph_comm ⟨hy1.1.1, hy1.1.2⟩ ⟨hx1.1.1, hx1.1.2⟩
          (fun h => hne h.symm) ⟨hy1.2.1, hy1.2.2⟩ ⟨hx1.2.1, hx1.2.2⟩ p) z
  exact ⟨hmain, by rw [hmain]⟩



/-- The template paragraph `{{C[B]D}}` used as counterexample input. -/
def ceDoc : Doc :=
  ⟨[⟨[⟨['{', '{', 'C', '[', 'B', ']', 'D', '}', '}'], 0⟩]⟩], [], []⟩

/-- Mapping `C[B]D ↦ W, B ↦ V` in that order. -/
def ceData1 : List (Str × Str) := [(['C', '[', 'B', ']', 'D'], ['W']), (['B'], ['V'])]

/-- The same mapping in the opposite order. -/
def ceData2 : List (Str × Str) := [(['B'], ['V']), (['C', '[', 'B', ']', 'D'], ['W'])]

/-- C5 counterexample: the two orders are permutations of one another, no
field's value contains any format of the other field, and yet the final
paragraph texts differ (`W` against `{{CVD}}`). -/
theorem claim_C5_counterexample :
    ceData1.Perm ceData2
    ∧ (∀ x ∈ ceData1, ∀ y ∈ ceData1, x.1 ≠ y.1 → ∀ f ∈ formats y.1, isSub f x.2 = false)
    ∧ docTexts (replacePlaceholders ceData1 ceDoc)
        ≠ docTexts (replacePlaceholders ceData2 ceDoc) := by
  refine ⟨by decide, by decide, ?_⟩
  have h1 : docTexts (replacePlaceholders ceData1 ceDoc) = [['W']] := by
    simp [ceDoc, ceData1, docTexts, allParas, tableParas, sectionParas,
      replacePlaceholders, mapDocParas, replaceInParagraph, formats, tryFormats,
      Para.text, isSub, isPre, rewritePara, replaceAll, replaceAllAux,
      ddForm, brForm, sbForm]
  have h2 : docTexts (replacePlaceholders ceData2 ceDoc)
      = [['{', '{', 'C', 'V', 'D', '}', '}']] := by
    simp [ceDoc, ceData2, docTexts, allParas, tableParas, sectionParas,
      replacePlaceholders, mapDocParas, replaceInParagraph, formats, tryFormats,
      Para.text, isSub, isPre, rewritePara, replaceAll, replaceAllAux,
      ddForm, brForm, sbForm]
  rw [h1, h2]
  decide

theorem claim_C5_witness :
    docTexts (replacePlaceholders
        [((['X'] : Str), ['J', 'a', 'n', 'e']), ((['Y'] : Str), ['2', '5'])] ceDoc)
      = docTexts (replacePlaceholders
        [((['Y'] : Str), ['2', '5']), ((['X'] : Str), ['J', 'a', 'n', 'e'])] ceDoc) :=
  (claim_C5 ceDoc
    [((['X'] : Str), ['J', 'a', 'n', 'e']), ((['Y'] : Str), ['2', '5'])]
    [((['Y'] : Str), ['2', '5']), ((['X'] : Str), ['J', 'a', 'n', 'e'])]
    (by decide) (by decide) (by decide)).2



/-- C10 (amended): within a paragraph, the first matching form is replaced
globally by `str.replace` and no other form is applied; a bracket-form
occurrence survives a double-brace replacement and a single-brace occurrence
survives a bracket replacement (these never overlap the replaced tokens);
only a single-brace occurrence nested inside a replaced double-brace token
disappears with it. -/
theorem claim_C10 : ∀ (N v t : Str), N ≠ [] → (∀ c ∈ N, upChar c = true) →
    (isSub (ddForm N) t = true →
        applyText N v t = replaceAll (ddForm N) v t
        ∧ (isSub (brForm N) t = true → isSub (brForm N) (applyText N v t) = true))
  ∧ (isSub (ddForm N) t = false → isSub (brForm N) t = true →
        applyText N v t = replaceAll (brForm N) v t
        ∧ (isSub (sbForm N) t = true → isSub (sbForm N) (applyText N v t) = true)) := by
  intro N v t hne hup
  constructor
  · intro hdd
    have heq : applyText N v t = replaceAll (ddForm N) v t := by
      simp [applyText, tryFormatsText, formats, hdd]
    refine ⟨heq, fun hbr => ?_⟩
    rw [heq]
    exact replAux_isSub_preserve (by simp [brForm]) (sep_br_dd hup) t hbr
  · intro hdd hbr
    have heq : applyText N v t = replaceAll (brForm N) v t := by
      simp [applyText, tryFormatsText, formats, hdd, hbr]
    refine ⟨heq, fun hsb => ?_⟩
    rw [heq]
    exact replAux_isSub_preserve (by simp [sbForm]) (sep_sb_br hup) t hsb

/-- C10 counterexample: on the paragraph text `{{A}}`, the single-brace form
`{A}` occurs (inside the double-brace token), yet after the double-brace
replacement it is gone — it was not left in place. -/
theorem claim_C10_counterexample :
    isSub (sbForm ['A']) ['{', '{', 'A', '}', '}'] = true
    ∧ applyText ['A'] ['v'] ['{', '{', 'A', '}', '}'] = ['v']
    ∧ isSub (sbForm ['A']) (applyText ['A'] ['v'] ['{', '{', 'A', '}', '}']) = false := by
  have h : applyText ['A'] ['v'] ['{', '{', 'A', '}', '}'] = ['v'] := by
    simp [applyText, tryFormatsText, formats, ddForm, brForm, sbForm, isSub, isPre,
      replaceAll, replaceAllAux]
  refine ⟨by decide, h, ?_⟩
  rw [h]
  decide

theorem claim_C10_witness :
    applyText ['X'] ['v'] ['[', 'X', ']', ' ', '{', 'X', '}']
      = replaceAll (brForm ['X']) ['v'] ['[', 'X', ']', ' ', '{', 'X', '}']
    ∧ isSub (sbForm ['X'])
        (applyText ['X'] ['v'] ['[', 'X', ']', ' ', '{', 'X', '}']) = true :=
  ⟨((claim_C10 ['X'] ['v'] ['[', 'X', ']', ' ', '{', 'X', '}']
      (by decide) (by decide)).2 (by decide) (by decide)).1,
   ((claim_C10 ['X'] ['v'] ['[', 'X', ']', ' ', '{', 'X', '}']
      (by decide) (by decide)).2 (by decide) (by decide)).2 (by decide)⟩


end FormAuto
